import Mathlib

/-!
Verification of the coinbitrage arbitrage coordination core.

The definitions below are shallow embeddings of the Python source:

* `src/coinbitrage/exchanges/order_book.py` — the sequenced order-book store
  (`OrderBook.update`, `_get_book_side`, `best_bid`, `best_ask`);
* `src/coinbitrage/engine.py` — the arbitrage engine (`_maximum_profit`,
  `_arbitrage_profit_loss`, `_attempt_arbitrage`, `_place_orders`,
  `_place_orders_async`, `_redistribute_funds`).

Prices and quantities are rationals.  The price keys of the book trees are the
scaled integers used by `pylimitbook` (a price is displayed by `_format_price`,
i.e. divided by `10 ^ PRICE_PRECISION`).  Where behaviour of the program lives
outside this repository (the `pylimitbook` ladder primitives, and the
order-book co-walk opportunity sizer that the spec describes but
`src/coinbitrage/engine.py` does not contain) the definition is modelled from
the spec and its doc comment says so.
-/

namespace Coinbitrage

/-! ### Association-list helpers (Python dicts keyed by exchange name / pair) -/

/-- Look a key up in an association list (Python `d.get(k)` / `d[k]`). -/
def getAssoc {α : Type} : List (String × α) → String → Option α
  | [], _ => none
  | (k', v) :: rest, k => if k = k' then some v else getAssoc rest k

/-- Set a key in an association list (Python `d[k] = v`): replace the first
binding in place, or append a fresh binding at the end. -/
def setAssoc {α : Type} : List (String × α) → String → α → List (String × α)
  | [], k, v => [(k, v)]
  | (k', v') :: rest, k, v =>
    if k = k' then (k, v) :: rest else (k', v') :: setAssoc rest k v

/-- Remove a key from an association list (Python `d.pop(k)`). -/
def removeKey {α : Type} : List (String × α) → String → List (String × α)
  | [], _ => []
  | (k', v') :: rest, k => if k = k' then rest else (k', v') :: removeKey rest k

/-- The keys of an association list. -/
def keysOf {α : Type} (l : List (String × α)) : List String := l.map Prod.fst

/-- The sum of the values of an association list. -/
def valuesSum (l : List (String × ℚ)) : ℚ := (l.map Prod.snd).sum

/-- How many bindings of the list carry the given key. -/
def countKey {α : Type} (l : List (String × α)) (k : String) : ℕ :=
  (l.filter (fun x => x.1 = k)).length

/-! ### The price ladder (`OrderBook` in `src/coinbitrage/exchanges/order_book.py`)

One side of a book is the content of a `pylimitbook` red-black price tree:
an association list of (scaled integer price, volume) kept sorted strictly
ascending by price, one level per price. -/

/-- One side of a ladder: (scaled integer price, volume) levels, ascending. -/
abbrev Side := List (Int × ℚ)

/-- Insert or replace a level, keeping the list sorted ascending by price. -/
def insertLevel (p : Int) (q : ℚ) : Side → Side
  | [] => [(p, q)]
  | (p', q') :: rest =>
    if p < p' then (p, q) :: (p', q') :: rest
    else if p = p' then (p, q) :: rest
    else (p', q') :: insertLevel p q rest

/-- Remove the level at a price, if present. -/
def removeLevel (p : Int) : Side → Side
  | [] => []
  | (p', q') :: rest => if p = p' then rest else (p', q') :: removeLevel p rest

/-- Modelled from the spec: `pylimitbook.book.Book.bid_split` / `ask_split`
(the external ladder library, not part of this repository, called by
`OrderBook._initialize` and `OrderBook._order` with one order id per price).
Per the spec's data model, it upserts the level at `price`, and "a level with
quantity 0 is removed from the ladder, never stored". -/
def splitUpsert (price : Int) (qty : ℚ) (s : Side) : Side :=
  if qty = 0 then removeLevel price s else insertLevel price qty s

/-- The smallest price key of a side (`price_tree.min_key()`). -/
def minKey : Side → Option Int
  | [] => none
  | (p, _) :: _ => some p

/-- The largest price key of a side (`price_tree.max_key()`). -/
def maxKey : Side → Option Int
  | [] => none
  | [(p, _)] => some p
  | _ :: x :: rest => maxKey (x :: rest)

/-- A book for one pair: bid side and ask side (`pylimitbook.book.Book`). -/
structure Book where
  bids : Side
  asks : Side
deriving DecidableEq

/-- One entry of an `OrderBookUpdate` (`entry['type']` dispatch in
`OrderBook.update`): a full snapshot (`_initialize`), a single level change
(`_order`), or a trade notification (`_trade`, which mutates nothing). -/
inductive BookEntry
  | snapshot (bids asks : List (Int × ℚ))
  | order (isBid : Bool) (price : Int) (qty : ℚ)
  | trade
deriving DecidableEq

/-- `OrderBookUpdate = namedtuple('OrderBookUpdate', ['pair', 'sequence', 'updates'])`. -/
structure BookUpdate where
  pair : String
  sequence : Option Int
  entries : List BookEntry
deriving DecidableEq

/-- The state of the `OrderBook` object: `_books`, `_next_sequence`, and the
set of pairs whose `_initialized` event is set. -/
structure OrderBookState where
  books : List (String × Book)
  nextSequence : List (String × Int)
  initedPairs : List String
deriving DecidableEq

/-- `OrderBook._initialize`: replace the pair's book with a fresh one built
from the snapshot (bids then asks, through `bid_split`/`ask_split`), and set
the pair's initialized event. -/
def applySnapshot (st : OrderBookState) (pair : String)
    (bs as : List (Int × ℚ)) : OrderBookState :=
  let withBids := bs.foldl (fun (sd : Side) pq => splitUpsert pq.1 pq.2 sd) []
  let withAsks := as.foldl (fun (sd : Side) pq => splitUpsert pq.1 pq.2 sd) []
  { st with
    books := setAssoc st.books pair ⟨withBids, withAsks⟩
    initedPairs := if pair ∈ st.initedPairs then st.initedPairs else pair :: st.initedPairs }

/-- `OrderBook._order`: upsert one level on the pair's existing book.
(When no book exists for the pair the Python raises `KeyError`; sequenced
updates always follow a snapshot, so this is modelled as a no-op.) -/
def applyOrder (st : OrderBookState) (pair : String)
    (isBid : Bool) (price : Int) (qty : ℚ) : OrderBookState :=
  match getAssoc st.books pair with
  | none => st
  | some bk =>
    let bk' := if isBid then { bk with bids := splitUpsert price qty bk.bids }
               else { bk with asks := splitUpsert price qty bk.asks }
    { st with books := setAssoc st.books pair bk' }

/-- Apply one entry of an update (the `getattr(self, f'_{entry_type}')` call). -/
def applyEntry (pair : String) (st : OrderBookState) : BookEntry → OrderBookState
  | .snapshot bs as => applySnapshot st pair bs as
  | .order isBid price qty => applyOrder st pair isBid price qty
  | .trade => st

/-- Result of `OrderBook.update`: either the new state, or the
`OrderBookUpdateError` raised on a sequence mismatch.  The Python raises
before touching any entry, so the error constructor carries the object's
fields exactly as they stood on entry to the call. -/
inductive UpdateResult
  | ok (st : OrderBookState)
  | seqError (st : OrderBookState) (msg : String)
deriving DecidableEq

/-- Whether the call raised `OrderBookUpdateError`. -/
def UpdateResult.isSeqError : UpdateResult → Bool
  | .ok _ => false
  | .seqError _ _ => true

/-- `OrderBook.update`: if the pair has no expected sequence number yet, or the
received number equals the expected one, apply every entry in order and set
`_next_sequence[pair] = received + 1` (when the update is sequenced at all);
on any other received number — lower or higher — raise
`OrderBookUpdateError('Recieved messages out of order')`. -/
def OrderBookState.update (st : OrderBookState) (u : BookUpdate) : UpdateResult :=
  let expected := getAssoc st.nextSequence u.pair
  if expected = none ∨ u.sequence = expected then
    let st' := u.entries.foldl (applyEntry u.pair) st
    match u.sequence with
    | none => .ok st'
    | some n => .ok { st' with nextSequence := setAssoc st'.nextSequence u.pair (n + 1) }
  else
    .seqError ⟨st.books, st.nextSequence, st.initedPairs⟩ "Recieved messages out of order"

/-- Apply a list of updates in order, stopping at the first sequence error
(the stream consumer stops feeding the book once `update` raises). -/
def applyUpdates (st : OrderBookState) : List BookUpdate → UpdateResult
  | [] => .ok st
  | u :: us =>
    match st.update u with
    | .ok st' => applyUpdates st' us
    | .seqError st' msg => .seqError st' msg

/-- `OrderBook._format_price`: a scaled integer key divided by
`10 ^ PRICE_PRECISION`. -/
def formatPrice (prec : ℕ) (k : Int) : ℚ := (k : ℚ) / 10 ^ prec

/-- `OrderBook.best_bid`: raise if the pair is not initialized, else the
largest bid key, formatted.  (`max_key` on an empty tree also raises.) -/
def OrderBookState.bestBid (st : OrderBookState) (pair : String) (prec : ℕ) :
    Except String ℚ :=
  if pair ∈ st.initedPairs then
    match getAssoc st.books pair with
    | none => .error "no book"
    | some bk =>
      match maxKey bk.bids with
      | none => .error "empty side"
      | some k => .ok (formatPrice prec k)
  else .error "not initialized"

/-- `OrderBook.best_ask`: raise if the pair is not initialized, else the
smallest ask key, formatted. -/
def OrderBookState.bestAsk (st : OrderBookState) (pair : String) (prec : ℕ) :
    Except String ℚ :=
  if pair ∈ st.initedPairs then
    match getAssoc st.books pair with
    | none => .error "no book"
    | some bk =>
      match minKey bk.asks with
      | none => .error "empty side"
      | some k => .ok (formatPrice prec k)
  else .error "not initialized"

/-! ### The book walk (`OrderBook._get_book_side`) -/

/-- Total volume of a list of levels. -/
def sideVolume (l : List (Int × ℚ)) : ℚ := (l.map Prod.snd).sum

/-- The `for price, orders in tree.items(is_bid)` loop of `_get_book_side`:
subtract each level's volume from the remaining volume and break once it
reaches 0; the returned key is the level the loop stopped at (the last level
visited when the book runs out first).  An empty side leaves the loop
variable unbound (a Python `NameError`), modelled as `none`. -/
def walkBreakKey : List (Int × ℚ) → ℚ → Option Int
  | [], _ => none
  | [(p, _)], _ => some p
  | (p, q) :: y :: t, vol =>
    if vol - q ≤ 0 then some p else walkBreakKey (y :: t) (vol - q)

/-- The shortest prefix of the iteration order whose cumulative volume covers
the requested volume (the whole list when it never does); the reference the
walk is compared against. -/
def minCover : List (Int × ℚ) → ℚ → List (Int × ℚ)
  | [], _ => []
  | (p, q) :: rest, vol =>
    if vol - q ≤ 0 then [(p, q)] else (p, q) :: minCover rest (vol - q)

/-- The iteration order of `tree.items(is_bid)`: descending (the reversed
ascending tree content) for bids, ascending for asks. -/
def iterOrder (isBid : Bool) (s : Side) : Side :=
  if isBid then s.reverse else s

/-- `OrderBook._get_book_side` on a side `s` (the ascending tree content).
Bids are iterated descending (`tree.items(True)`), asks ascending.  With a
maximum volume, walk until the remaining volume reaches 0, then return the
tree slice up to the break key — `item_slice(None, price + 1)` (keys
`< price + 1`) for asks, `item_slice(price, None, reverse)` (keys `≥ price`,
descending) for bids — with prices formatted.  Without one, the whole side. -/
def getBookSide (isBid : Bool) (s : Side) (maxVolume : Option ℚ) (prec : ℕ) :
    Option (List (ℚ × ℚ)) :=
  let iter := iterOrder isBid s
  match maxVolume with
  | none => some (iter.map (fun pq => (formatPrice prec pq.1, pq.2)))
  | some mv =>
    match walkBreakKey iter mv with
    | none => none
    | some brk =>
      let sliced := if isBid then (s.filter (fun pq => decide (brk ≤ pq.1))).reverse
                    else s.filter (fun pq => decide (pq.1 < brk + 1))
      some (sliced.map (fun pq => (formatPrice prec pq.1, pq.2)))

/-! ### Ticker prices and opportunity selection (`src/coinbitrage/engine.py`) -/

/-- One entry of `ArbitrageEngine._last_prices`: the cached
`{'bid': ..., 'ask': ..., 'time': ...}` dict.  `fresh` stands for the check
`last['time'] and last['time'] > time.time() - MAX_REFRESH_DELAY`. -/
structure LastPrice where
  bid : Option ℚ
  ask : Option ℚ
  fresh : Bool
deriving DecidableEq

/-- `ArbitrageEngine._arbitrage_profit_loss`: `None` when buying and selling
at the same exchange, or when either cached price is falsy (missing or zero);
otherwise `sell_bid / buy_ask - 1`. -/
def arbitrageProfitLoss (prices : List (String × LastPrice))
    (buyEx sellEx : String) : Option ℚ :=
  if buyEx = sellEx then none
  else
    match getAssoc prices sellEx, getAssoc prices buyEx with
    | some sp, some bp =>
      match sp.bid, bp.ask with
      | some bid, some ask =>
        if bid = 0 ∨ ask = 0 then none else some (bid / ask - 1)
      | _, _ => none
    | _, _ => none

/-- The `buy_exchange_filter` of `_maximum_profit`: active, has an ask, fresh. -/
def buyExchangeFilter (buyList : List String) (x : String × LastPrice) : Bool :=
  buyList.contains x.1 && x.2.ask.isSome && x.2.fresh

/-- The `sell_exchange_filter` of `_maximum_profit`: active, has a bid, fresh. -/
def sellExchangeFilter (sellList : List String) (x : String × LastPrice) : Bool :=
  sellList.contains x.1 && x.2.bid.isSome && x.2.fresh

/-- Python `min(items, key=lambda x: x[1]['ask'])`: the first item with the
smallest ask (the filters guarantee the ask is present). -/
def minByAsk : List (String × LastPrice) → Option (String × LastPrice)
  | [] => none
  | x :: xs =>
    some (xs.foldl (fun b y => if (y.2.ask.getD 0) < (b.2.ask.getD 0) then y else b) x)

/-- Python `max(items, key=lambda x: x[1]['bid'])`: the first item with the
largest bid. -/
def maxByBid : List (String × LastPrice) → Option (String × LastPrice)
  | [] => none
  | x :: xs =>
    some (xs.foldl (fun b y => if (b.2.bid.getD 0) < (y.2.bid.getD 0) then y else b) x)

/-- `ArbitrageEngine._maximum_profit`: filter to eligible, fresh exchanges;
pick the buy exchange with the lowest ask and the sell exchange with the
highest bid; return them with `_arbitrage_profit_loss` of the pair, or `none`
when either side has no eligible exchange. -/
def maximumProfit (buyList sellList : List String)
    (prices : List (String × LastPrice)) : Option (String × String × Option ℚ) :=
  let validBuys := prices.filter (buyExchangeFilter buyList)
  let validSells := prices.filter (sellExchangeFilter sellList)
  match minByAsk validBuys, maxByBid validSells with
  | some (bex, _), some (sex, _) => some (bex, sex, arbitrageProfitLoss prices bex sex)
  | _, _ => none

/-- The order-placing decision of `ArbitrageEngine._attempt_arbitrage`
(lines 234–245): with an opportunity in hand, subtract both trading fees and
the estimated transfer fee from the expected profit and place orders only when
the result exceeds the minimum-profit threshold.  Returns the
(buy, sell, adjusted profit) triple that `_place_orders` would be called with,
or `none` when no orders are placed. -/
def attemptDecision (minProfitThreshold buyFee sellFee transferFee : ℚ)
    (opportunity : Option (String × String × Option ℚ)) :
    Option (String × String × ℚ) :=
  match opportunity with
  | none => none
  | some (_, _, none) => none
  | some (bex, sex, some p) =>
    let adjusted := p - (buyFee + sellFee + transferFee)
    if minProfitThreshold < adjusted then some (bex, sex, adjusted) else none

/-! ### Rebalancing (`ArbitrageEngine._redistribute_funds`) -/

/-- Python `max(d.items(), key=lambda x: x[1])`: the first binding with the
largest value. -/
def maxByVal : List (String × ℚ) → Option (String × ℚ)
  | [] => none
  | x :: xs => some (xs.foldl (fun b y => if b.2 < y.2 then y else b) x)

/-- The debts/credits partition of `redistribute` (lines 144–152): an exchange
whose balance is below the order size owes `average_balance - balance`; an
exchange whose balance exceeds `average_balance + min_transfer` is owed
`balance - average_balance`; others take part in no transfer. -/
def partitionDC (avg orderSize minTransfer : ℚ) :
    List (String × ℚ) → List (String × ℚ) × List (String × ℚ)
  | [] => ([], [])
  | (ex, bal) :: rest =>
    let r := partitionDC avg orderSize minTransfer rest
    if bal < orderSize then ((ex, avg - bal) :: r.1, r.2)
    else if avg + minTransfer < bal then (r.1, (ex, bal - avg) :: r.2)
    else r

/-- The debts and credits computed by `redistribute(currency)`:
`average_balance = (total - order_size) / len(self._exchanges)`, then the
partition above over the per-exchange balances. -/
def computeDebtsCredits (balances : List (String × ℚ)) (orderSize minTransfer : ℚ) :
    List (String × ℚ) × List (String × ℚ) :=
  let avg := (valuesSum balances - orderSize) / (balances.length : ℚ)
  partitionDC avg orderSize minTransfer balances

/-- `get_funds_from(from_exchange, currency, amt)` as it affects the venue
balances: debit the creditor by `amt` and credit the debtor by the same `amt`. -/
def applyTransfer (balances : List (String × ℚ)) (src dst : String) (amt : ℚ) :
    List (String × ℚ) :=
  balances.map (fun x =>
    if x.1 = src then (x.1, x.2 - amt)
    else if x.1 = dst then (x.1, x.2 + amt)
    else x)

/-- One executed transfer of the rebalancing loop, with the debt and credit
of the two parties at the moment it was chosen. -/
structure TransferRec where
  src : String
  dst : String
  debt : ℚ
  credit : ℚ
  amount : ℚ
deriving DecidableEq

/-- The mutable state of the `while debts and credits` loop. -/
structure RebalState where
  debts : List (String × ℚ)
  credits : List (String × ℚ)
  balances : List (String × ℚ)
deriving DecidableEq

/-- Outcome of one iteration of the loop body. -/
inductive RebalStep
  | done (s : RebalState)
  | assertFail (s : RebalState)
  | step (t : TransferRec) (s : RebalState)
deriving DecidableEq

/-- One iteration of the `while debts and credits` loop (lines 157–174):
pick the largest debtor and creditor; if `debt < credit`, transfer
`max(debt, min_transfer)`, drop the debtor and shrink (or drop) the creditor;
otherwise `assert credit >= min_transfer`, transfer the whole credit, drop the
creditor and shrink the debtor.  When either map is empty the loop exits. -/
def redistributeStep (minTransfer : ℚ) (s : RebalState) : RebalStep :=
  match maxByVal s.debts, maxByVal s.credits with
  | some (toEx, debt), some (fromEx, credit) =>
    if debt < credit then
      let amt := max debt minTransfer
      let c' := credit - amt
      let credits' := if c' < minTransfer then removeKey (setAssoc s.credits fromEx c') fromEx
                      else setAssoc s.credits fromEx c'
      .step ⟨fromEx, toEx, debt, credit, amt⟩
        ⟨removeKey s.debts toEx, credits', applyTransfer s.balances fromEx toEx amt⟩
    else if credit < minTransfer then .assertFail s
    else
      .step ⟨fromEx, toEx, debt, credit, credit⟩
        ⟨setAssoc s.debts toEx (debt - credit), removeKey s.credits fromEx,
         applyTransfer s.balances fromEx toEx credit⟩
  | _, _ => .done s

/-- The rebalancing loop, run with explicit fuel.  Returns the final state,
the executed transfers in order, and whether the loop finished (reached the
exit condition without an assertion failure and without running out of fuel). -/
def redistributeLoop (minTransfer : ℚ) : ℕ → RebalState →
    RebalState × List TransferRec × Bool
  | 0, s => (s, [], s.debts.isEmpty || s.credits.isEmpty)
  | fuel + 1, s =>
    match redistributeStep minTransfer s with
    | .done s' => (s', [], true)
    | .assertFail s' => (s', [], false)
    | .step t s' =>
      let r := redistributeLoop minTransfer fuel s'
      (r.1, t :: r.2.1, r.2.2)

/-- `redistribute(currency)` run to completion: partition into debts and
credits and run the loop (with enough fuel for the whole loop, see the
termination theorem). -/
def redistribute (balances : List (String × ℚ)) (orderSize minTransfer : ℚ) :
    RebalState × List TransferRec × Bool :=
  let (d, c) := computeDebtsCredits balances orderSize minTransfer
  redistributeLoop minTransfer (d.length + c.length) ⟨d, c, balances⟩

/-! ### Paired-order placement (`ArbitrageEngine._place_orders`, lines 325–345) -/

/-- What `_place_orders` does once both leg responses are in: record success
when both placed; when exactly one placed, attempt to cancel the successful
order (`client.cancel_order(resp)`); when both failed, log total failure.
`successIsBuy` tells which leg's order is being cancelled. -/
inductive PlaceOrdersOutcome
  | bothPlaced (buyId sellId : String)
  | cancelOne (successIsBuy : Bool) (orderId : String)
  | bothFailed
deriving DecidableEq

/-- The branch taken by `_place_orders` on the pair of leg responses
(a `None` response stands for a falsy `buy_resp`/`sell_resp`: an exception or
a failed placement). -/
def placeOrdersOutcome : Option String → Option String → PlaceOrdersOutcome
  | some b, some s => .bothPlaced b s
  | some b, none => .cancelOne true b
  | none, some s => .cancelOne false s
  | none, none => .bothFailed

/-- Modelled from the spec: the `ExecutionResult` of §4.4, which
`src/coinbitrage/engine.py` does not define (its partial-failure branch
cancels the surviving order instead of reconciling balances). -/
inductive ExecutionResult
  | bothFilled
  | partialFilled
  | partialError
  | bothFailed
deriving DecidableEq

/-- Modelled from the spec: §4.4 partial-failure reconciliation, absent from
`src/coinbitrage/engine.py`.  When exactly one leg succeeds, compare pre- and
post-attempt total balances: if the base-currency delta is within a small
tolerance of the intended volume and the quote-currency delta is positive,
the result is `partialFilled` (a delayed success); otherwise a genuine
partial failure. -/
def specReconcile (intendedVolume tolerance : ℚ)
    (preBase postBase preQuote postQuote : ℚ) :
    Option String → Option String → ExecutionResult
  | some _, some _ => .bothFilled
  | none, none => .bothFailed
  | _, _ =>
    if |postBase - preBase| - intendedVolume ≤ tolerance ∧
       intendedVolume - |postBase - preBase| ≤ tolerance ∧
       0 < postQuote - preQuote
    then .partialFilled
    else .partialError

/-! ### The `asyncio` trace of `_place_orders_async` (lines 347–361)

`_place_order_async` is `async` but contains no `await`: it directly calls the
blocking `partial_fn()` (a synchronous `requests` call through `limit_order`).
Under `asyncio.gather` on a single-threaded event loop, a coroutine with no
suspension point runs from its first scheduling to completion before any other
gathered coroutine starts. -/

/-- Observable events of one order leg: the wire call starting, and its
result becoming available.  `true` is the buy leg. -/
inductive OrderEvent
  | submitted (isBuy : Bool)
  | completed (isBuy : Bool)
deriving DecidableEq

/-- The atomic block `_place_order_async(partial_fn)` executes once scheduled:
it submits the order (the blocking `partial_fn()` call begins) and returns its
result, with no suspension point in between. -/
def placeOrderBlock (isBuy : Bool) : List OrderEvent :=
  [.submitted isBuy, .completed isBuy]

/-- The event-loop trace of `await asyncio.gather(*tasks)` when every gathered
coroutine is a single atomic block (no awaits): each runs to completion in
order before the next starts. -/
def gatherTraceNoAwait (tasks : List (List OrderEvent)) : List OrderEvent :=
  tasks.flatten

/-- The trace of `_place_orders_async(buy_partial, sell_partial)`: gather over
the buy block then the sell block. -/
def placeOrdersAsyncTrace : List OrderEvent :=
  gatherTraceNoAwait [placeOrderBlock true, placeOrderBlock false]

/-- The property the spec asserts of the paired placement: every submission
event precedes every completion event in the trace. -/
def allSubmitsBeforeResults (tr : List OrderEvent) : Prop :=
  ∀ i j : Fin tr.length, (∃ l, tr.get i = .submitted l) →
    (∃ l, tr.get j = .completed l) → (i : ℕ) < (j : ℕ)

/-! ### The order-book co-walk opportunity sizer (spec §4.2)

The spec's sizing algorithm walks the buy venue's asks against the sell
venue's bids.  No function of `src/coinbitrage/engine.py` implements it (the
engine sizes orders from cached ticker prices and fixed order sizes), so the
sizer is modelled from the spec below. -/

/-- One matched chunk of the co-walk: ask price, bid price, matched quantity. -/
structure BookMatch where
  askPrice : ℚ
  bidPrice : ℚ
  qty : ℚ
deriving DecidableEq

/-- Modelled from the spec: the order-book co-walk of §4.2 (not present in
`src/coinbitrage/engine.py`).  Repeatedly match the smaller of the two
currently-held level quantities, consuming the exhausted side's level (both
when they tie); stop when either walk is exhausted or the upper bound on
volume is reached (the final match is truncated to the bound). -/
def coWalk : List (ℚ × ℚ) → List (ℚ × ℚ) → ℚ → List BookMatch
  | [], _, _ => []
  | _ :: _, [], _ => []
  | (ap, aq) :: asksRest, (bp, bq) :: bidsRest, bound =>
    if bound ≤ 0 then []
    else if bound ≤ min aq bq then [⟨ap, bp, bound⟩]
    else if aq < bq then
      ⟨ap, bp, aq⟩ :: coWalk asksRest ((bp, bq - aq) :: bidsRest) (bound - aq)
    else if bq < aq then
      ⟨ap, bp, bq⟩ :: coWalk ((ap, aq - bq) :: asksRest) bidsRest (bound - bq)
    else
      ⟨ap, bp, aq⟩ :: coWalk asksRest bidsRest (bound - aq)
termination_by asks bids _ => asks.length + bids.length
decreasing_by all_goals (simp only [List.length_cons]; omega)

/-- Modelled from the spec: net profit of a candidate, §4.2 —
`bidCost - askCost - transferFee(base) * avgAskPrice` with
`avgAskPrice = askCost / totalSize`. -/
def netProfitOf (fee askCost bidCost size : ℚ) : ℚ :=
  bidCost - askCost - fee * (askCost / size)

/-- Modelled from the spec: net percent profit, `netProfit / askCost`. -/
def netPctOf (fee askCost bidCost size : ℚ) : ℚ :=
  netProfitOf fee askCost bidCost size / askCost

/-- A candidate cumulative order: total size, accumulated ask and bid costs,
and its net percent profit. -/
structure SizeCand where
  size : ℚ
  askCost : ℚ
  bidCost : ℚ
  netPct : ℚ
deriving DecidableEq

/-- Brute-force candidate at prefix length `k`: recompute total size, ask
cost, bid cost and net percent profit of the first `k` matches from scratch. -/
def candAt (fee : ℚ) (ms : List BookMatch) (k : ℕ) : SizeCand :=
  let pre := ms.take k
  let size := (pre.map (fun m => m.qty)).sum
  let ac := (pre.map (fun m => m.askPrice * m.qty)).sum
  let bc := (pre.map (fun m => m.bidPrice * m.qty)).sum
  ⟨size, ac, bc, netPctOf fee ac bc size⟩

/-- Every candidate prefix size, each recomputed from scratch (the reference
O(n²) enumeration). -/
def candList (fee : ℚ) (ms : List BookMatch) : List SizeCand :=
  (List.range ms.length).map (fun k => candAt fee ms (k + 1))

/-- First candidate of a list with the maximal net percent profit (ties kept
at the earlier, smaller-size candidate): the brute-force selection. -/
def argmaxPct : List SizeCand → Option SizeCand
  | [] => none
  | c :: cs =>
    match argmaxPct cs with
    | none => some c
    | some b => if c.netPct < b.netPct then some b else some c

/-- The brute-force reference: recompute every prefix candidate from scratch
and pick the one maximizing net percent profit. -/
def bruteForceBest (fee : ℚ) (ms : List BookMatch) : Option SizeCand :=
  argmaxPct (candList fee ms)

/-- One step of the one-pass sizer: extend the accumulated size and costs by
the next match, evaluate the candidate, and keep it only when its net percent
profit strictly beats the best seen. -/
def onePassStep (fee : ℚ) (acc : ℚ × ℚ × ℚ × Option SizeCand) (m : BookMatch) :
    ℚ × ℚ × ℚ × Option SizeCand :=
  let size := acc.1 + m.qty
  let ac := acc.2.1 + m.askPrice * m.qty
  let bc := acc.2.2.1 + m.bidPrice * m.qty
  let c : SizeCand := ⟨size, ac, bc, netPctOf fee ac bc size⟩
  let best :=
    match acc.2.2.2 with
    | none => some c
    | some b => if b.netPct < c.netPct then some c else some b
  (size, ac, bc, best)

/-- Modelled from the spec: the one-pass sizer of §4.2 — accumulate
`askCost`, `bidCost` and `totalSize` over the matches and track the best-seen
candidate by net percent profit. -/
def onePassBest (fee : ℚ) (ms : List BookMatch) : Option SizeCand :=
  (ms.foldl (onePassStep fee) (0, 0, 0, none)).2.2.2

/-! ### Auxiliary predicates and reference functions used by the theorems -/

/-- Track the best-seen candidate (by net percent profit, earliest on ties)
over a list of already-computed candidates, starting from a previous best. -/
def foldBest (init : Option SizeCand) (cs : List SizeCand) : Option SizeCand :=
  cs.foldl (fun ob c =>
    match ob with
    | none => some c
    | some b => if b.netPct < c.netPct then some c else some b) init

/-- Shift a candidate by already-accumulated size and costs, recomputing its
net percent profit from the shifted sums. -/
def addCand (fee : ℚ) (size ac bc : ℚ) (c : SizeCand) : SizeCand :=
  ⟨size + c.size, ac + c.askCost, bc + c.bidCost,
   netPctOf fee (ac + c.askCost) (bc + c.bidCost) (size + c.size)⟩

/-- The candidates produced incrementally from given starting sums — the
intermediate view of the one-pass fold. -/
def candsFrom (fee : ℚ) : ℚ → ℚ → ℚ → List BookMatch → List SizeCand
  | _, _, _, [] => []
  | size, ac, bc, m :: ms =>
    let size' := size + m.qty
    let ac' := ac + m.askPrice * m.qty
    let bc' := bc + m.bidPrice * m.qty
    ⟨size', ac', bc', netPctOf fee ac' bc' size'⟩ :: candsFrom fee size' ac' bc' ms

/-- All stored levels of a side have positive quantity. -/
def sidePos (s : Side) : Prop := ∀ x ∈ s, 0 < x.2

/-- All stored levels of every pair's book have positive quantity. -/
def statePos (st : OrderBookState) : Prop :=
  ∀ pb ∈ st.books, sidePos pb.2.bids ∧ sidePos pb.2.asks

/-- A valid update entry per the spec's data model: all quantities ≥ 0. -/
def entryNonneg : BookEntry → Prop
  | .snapshot bs as => (∀ x ∈ bs, 0 ≤ x.2) ∧ (∀ x ∈ as, 0 ≤ x.2)
  | .order _ _ q => 0 ≤ q
  | .trade => True

/-- The invariant the rebalancing loop maintains: the balance sheet has
distinct exchanges; debtors and creditors are distinct exchanges drawn from
it; and every outstanding credit is at least the minimum transfer size. -/
structure RebalInv (minTransfer : ℚ) (s : RebalState) : Prop where
  balNodup : (keysOf s.balances).Nodup
  debtsNodup : (keysOf s.debts).Nodup
  creditsNodup : (keysOf s.credits).Nodup
  debtsSub : ∀ k ∈ keysOf s.debts, k ∈ keysOf s.balances
  creditsSub : ∀ k ∈ keysOf s.credits, k ∈ keysOf s.balances
  disj : ∀ k ∈ keysOf s.debts, k ∉ keysOf s.credits
  creditsMin : ∀ x ∈ s.credits, minTransfer ≤ x.2

/-- The order-book state reached by applying a valid snapshot and then a
valid bid change above the best ask (used to exhibit a crossed book). -/
def crossedBookState : OrderBookState :=
  ⟨[("XRPBTC", ⟨[(100, 1), (102, 1)], [(101, 1)]⟩)], [("XRPBTC", 3)], ["XRPBTC"]⟩

/-! ## Theorems -/

/-- C2: the claim asserts that a duplicate (lower-than-expected) sequence
number is silently ignored and that `[1,2,2,3]` succeeds through 3.  On the
code, `update` accepts only the exactly-expected number once one is set: the
duplicate `2` already raises `OrderBookUpdateError`, and so does the gap `4`. -/
theorem C2_counterexample :
    (applyUpdates ⟨[], [], []⟩
        [⟨"XRPBTC", some 1, [.snapshot [(100, 1)] [(101, 1)]]⟩,
         ⟨"XRPBTC", some 2, [.order true 100 2]⟩,
         ⟨"XRPBTC", some 2, [.order true 100 2]⟩]).isSeqError = true ∧
    (applyUpdates ⟨[], [], []⟩
        [⟨"XRPBTC", some 1, [.snapshot [(100, 1)] [(101, 1)]]⟩,
         ⟨"XRPBTC", some 2, [.order true 100 2]⟩,
         ⟨"XRPBTC", some 4, [.order true 100 2]⟩]).isSeqError = true := by
  exact ⟨by decide, by decide⟩

/-- C2 (amended): once a pair's expected sequence number is set, an update is
applied iff its sequence number is exactly the expected one; any other number
— lower (duplicate) or higher (gap) — raises `OrderBookUpdateError`. -/
theorem C2_mismatch_raises (st : OrderBookState) (u : BookUpdate) (e : Int)
    (he : getAssoc st.nextSequence u.pair = some e) :
    (st.update u).isSeqError = true ↔ u.sequence ≠ some e := by
  unfold OrderBookState.update
  rw [he]
  by_cases hseq : u.sequence = some e
  · simp [hseq, UpdateResult.isSeqError]
  · simp [hseq, UpdateResult.isSeqError]

/-- C2 witness: a state expecting sequence number 3 rejects a duplicate 2. -/
theorem C2_mismatch_raises_witness :
    (OrderBookState.update ⟨[("XRPBTC", ⟨[(100, 1)], [(101, 1)]⟩)], [("XRPBTC", 3)], ["XRPBTC"]⟩
        ⟨"XRPBTC", some 2, [.order true 100 2]⟩).isSeqError = true :=
  (C2_mismatch_raises ⟨[("XRPBTC", ⟨[(100, 1)], [(101, 1)]⟩)], [("XRPBTC", 3)], ["XRPBTC"]⟩
      ⟨"XRPBTC", some 2, [.order true 100 2]⟩ 3 (by decide)).mpr (by decide)

/-- C9: when `update` raises a sequence error, the order-book state is
untouched: the books, the stored next-expected sequence numbers (in
particular the failing pair's), and the initialized flags are exactly as
before the call, and no entry of the update was applied. -/
theorem C9_failed_update_unchanged (st : OrderBookState) (u : BookUpdate)
    (st' : OrderBookState) (msg : String)
    (h : st.update u = .seqError st' msg) :
    st'.books = st.books ∧ st'.nextSequence = st.nextSequence ∧
    st'.initedPairs = st.initedPairs ∧
    getAssoc st'.nextSequence u.pair = getAssoc st.nextSequence u.pair := by
  simp only [OrderBookState.update] at h
  split at h
  · split at h <;> exact absurd h (by simp)
  · injection h with h1 _
    rw [← h1]
    exact ⟨rfl, rfl, rfl, rfl⟩

/-- C9 witness: a concrete failing duplicate leaves the state unchanged. -/
theorem C9_failed_update_unchanged_witness :
    (OrderBookState.update ⟨[], [("XRPBTC", 3)], []⟩
        ⟨"XRPBTC", some 2, [.order true 100 2]⟩)
      = .seqError ⟨[], [("XRPBTC", 3)], []⟩ "Recieved messages out of order" ∧
    ([] : List (String × Book)) = [] ∧
    [("XRPBTC", (3 : Int))] = [("XRPBTC", 3)] := by
  refine ⟨by decide, ?_, ?_⟩
  · exact (C9_failed_update_unchanged ⟨[], [("XRPBTC", 3)], []⟩
      ⟨"XRPBTC", some 2, [.order true 100 2]⟩ ⟨[], [("XRPBTC", 3)], []⟩
      "Recieved messages out of order" (by decide)).1
  · exact (C9_failed_update_unchanged ⟨[], [("XRPBTC", 3)], []⟩
      ⟨"XRPBTC", some 2, [.order true 100 2]⟩ ⟨[], [("XRPBTC", 3)], []⟩
      "Recieved messages out of order" (by decide)).2.1

/-- C6: the claim asserts that on a one-leg success the engine compares pre-
and post-attempt balances and returns `PartialFilled`.  On the code, a buy
success with a sell failure — even when the balance deltas are exactly the
delayed-success pattern of the spec — takes the cancellation branch of
`_place_orders`; the spec-modelled reconciliation would return
`partialFilled` at the same input. -/
theorem C6_counterexample :
    placeOrdersOutcome (some "buy-1") none = .cancelOne true "buy-1" ∧
    specReconcile 2 (1 / 100) 10 8 5 (91 / 10) (some "buy-1") none
      = .partialFilled := by
  refine ⟨rfl, ?_⟩
  have habs : |(8 : ℚ) - 10| = 2 := by
    rw [abs_of_nonpos (by norm_num)]
    norm_num
  have hcond : |(8 : ℚ) - 10| - 2 ≤ 1 / 100 ∧ (2 : ℚ) - |(8 : ℚ) - 10| ≤ 1 / 100 ∧
      (0 : ℚ) < 91 / 10 - 5 :=
    ⟨by rw [habs]; norm_num, by rw [habs]; norm_num, by norm_num⟩
  show (if |(8 : ℚ) - 10| - 2 ≤ 1 / 100 ∧ (2 : ℚ) - |(8 : ℚ) - 10| ≤ 1 / 100 ∧
          (0 : ℚ) < 91 / 10 - 5
        then ExecutionResult.partialFilled else ExecutionResult.partialError)
      = ExecutionResult.partialFilled
  rw [if_pos hcond]

/-- C6 (amended): whenever exactly one leg of the paired order succeeds,
`_place_orders` does not consult balances at all — it attempts to cancel the
surviving order (the `cancelOne` branch, naming the successful side's order
id); no delayed-success result exists in the engine. -/
theorem C6_partial_failure_attempts_cancel (oid : String) :
    placeOrdersOutcome (some oid) none = .cancelOne true oid ∧
    placeOrdersOutcome none (some oid) = .cancelOne false oid :=
  ⟨rfl, rfl⟩

/-- C7: the claim asserts that when the best ask meets or exceeds the best
bid the sizer returns none.  On the code, `_maximum_profit` still returns the
exchange pair, with a zero (here) or negative expected profit. -/
theorem C7_counterexample :
    maximumProfit ["A"] ["B"]
        [("A", ⟨none, some 100, true⟩), ("B", ⟨some 100, none, true⟩)]
      = some ("A", "B", some (100 / 100 - 1)) ∧
    (100 : ℚ) / 100 - 1 = 0 ∧
    (some ("A", "B", some (100 / 100 - 1)) : Option (String × String × Option ℚ)) ≠ none := by
  exact ⟨rfl, by norm_num, by simp⟩

/-- C7 (amended): `_maximum_profit` can return a zero- or negative-profit
candidate, but such a candidate never reaches order placement: whenever the
chosen sell bid is at most the chosen buy ask, the profit
`_arbitrage_profit_loss` reports is at most 0, so after subtracting
non-negative fees it cannot exceed the non-negative minimum-profit threshold
and `_attempt_arbitrage` places no orders. -/
theorem C7_no_order_without_spread
    (prices : List (String × LastPrice)) (bex sex : String)
    (spLP bpLP : LastPrice) (bid ask : ℚ)
    (hs : getAssoc prices sex = some spLP) (hb : getAssoc prices bex = some bpLP)
    (hsbid : spLP.bid = some bid) (hbask : bpLP.ask = some ask)
    (hle : bid ≤ ask) (hask : 0 < ask)
    (th buyFee sellFee transferFee : ℚ)
    (hth : 0 ≤ th) (hbf : 0 ≤ buyFee) (hsf : 0 ≤ sellFee) (htf : 0 ≤ transferFee) :
    attemptDecision th buyFee sellFee transferFee
      (some (bex, sex, arbitrageProfitLoss prices bex sex)) = none := by
  unfold arbitrageProfitLoss
  by_cases hbs : bex = sex
  · simp [hbs, attemptDecision]
  · simp only [if_neg hbs, hs, hb, hsbid, hbask]
    by_cases hz : bid = 0 ∨ ask = 0
    · simp [hz, attemptDecision]
    · rw [if_neg hz]
      have hp : bid / ask - 1 ≤ 0 := by
        have : bid / ask ≤ 1 := (div_le_one hask).mpr hle
        linarith
      simp only [attemptDecision]
      rw [if_neg (not_lt.mpr (by linarith))]

/-- C7 witness: a concrete flat market (bid = ask = 100, zero fees, zero
threshold) leads to no order being placed. -/
theorem C7_no_order_without_spread_witness :
    attemptDecision 0 0 0 0
      (some ("A", "B",
        arbitrageProfitLoss
          [("A", ⟨none, some 100, true⟩), ("B", ⟨some 100, none, true⟩)] "A" "B"))
      = none :=
  C7_no_order_without_spread
    [("A", ⟨none, some 100, true⟩), ("B", ⟨some 100, none, true⟩)] "A" "B"
    ⟨some 100, none, true⟩ ⟨none, some 100, true⟩ 100 100
    (by decide) (by decide) rfl rfl le_rfl (by norm_num)
    0 0 0 0 le_rfl le_rfl le_rfl le_rfl

/-- C8: the two legs are NOT submitted before either is awaited.
`_place_order_async` has no suspension point — it calls the blocking
`partial_fn()` directly — so under `asyncio.gather` the buy coroutine runs to
completion (submit and result) before the sell coroutine even starts, despite
the code's own comment "Place buy and sell orders asynchronously". -/
theorem C8_legs_run_sequentially :
    placeOrdersAsyncTrace
      = [.submitted true, .completed true, .submitted false, .completed false] ∧
    ¬ allSubmitsBeforeResults placeOrdersAsyncTrace := by
  refine ⟨rfl, fun h => ?_⟩
  have h21 := h ⟨2, by decide⟩ ⟨1, by decide⟩ ⟨false, by decide⟩ ⟨true, by decide⟩
  exact absurd h21 (by decide)

/-! ### Lemmas about the book walk -/

theorem minCover_cons (p : Int) (q : ℚ) (rest : List (Int × ℚ)) (v : ℚ) :
    minCover ((p, q) :: rest) v
      = if v - q ≤ 0 then [(p, q)] else (p, q) :: minCover rest (v - q) := rfl

theorem walkBreakKey_cons (p : Int) (q : ℚ) (y : Int × ℚ) (t : List (Int × ℚ)) (v : ℚ) :
    walkBreakKey ((p, q) :: y :: t) v
      = if v - q ≤ 0 then some p else walkBreakKey (y :: t) (v - q) := rfl

theorem walkBreakKey_mem (L : List (Int × ℚ)) (v : ℚ) (k : Int)
    (h : walkBreakKey L v = some k) : k ∈ L.map Prod.fst := by
  induction L generalizing v with
  | nil => simp [walkBreakKey] at h
  | cons x rest ih =>
    obtain ⟨p, q⟩ := x
    cases rest with
    | nil =>
      injection h with h'
      simp [h']
    | cons y t =>
      rw [walkBreakKey_cons] at h
      by_cases hrem : v - q ≤ 0
      · rw [if_pos hrem] at h
        injection h with h'
        simp [h']
      · rw [if_neg hrem] at h
        have hm := ih (v - q) h
        simp only [List.map_cons, List.mem_cons] at hm ⊢
        exact Or.inr hm

theorem minCover_eq_take (L : List (Int × ℚ)) (v : ℚ) :
    ∃ n, minCover L v = L.take n := by
  induction L generalizing v with
  | nil => exact ⟨0, rfl⟩
  | cons x rest ih =>
    obtain ⟨p, q⟩ := x
    by_cases hrem : v - q ≤ 0
    · exact ⟨1, by rw [minCover_cons, if_pos hrem]; rfl⟩
    · obtain ⟨n, hn⟩ := ih (v - q)
      exact ⟨n + 1, by rw [minCover_cons, if_neg hrem, hn]; rfl⟩

theorem minCover_ne_nil (x : Int × ℚ) (l : List (Int × ℚ)) (v : ℚ) :
    minCover (x :: l) v ≠ [] := by
  obtain ⟨p, q⟩ := x
  rw [minCover_cons]
  by_cases hrem : v - q ≤ 0
  · rw [if_pos hrem]; simp
  · rw [if_neg hrem]; simp

theorem minCover_cons_shape (x : Int × ℚ) (l : List (Int × ℚ)) (v : ℚ) :
    ∃ m M, minCover (x :: l) v = m :: M := by
  cases hmc : minCover (x :: l) v with
  | nil => exact absurd hmc (minCover_ne_nil _ _ _)
  | cons m M => exact ⟨m, M, rfl⟩

theorem walkBreakKey_eq_last (L : List (Int × ℚ)) (v : ℚ) :
    walkBreakKey L v = ((minCover L v).getLast?).map Prod.fst := by
  induction L generalizing v with
  | nil => rfl
  | cons x rest ih =>
    obtain ⟨p, q⟩ := x
    cases rest with
    | nil =>
      rw [minCover_cons]
      by_cases hrem : v - q ≤ 0
      · rw [if_pos hrem]; rfl
      · rw [if_neg hrem]; rfl
    | cons y t =>
      rw [walkBreakKey_cons, minCover_cons]
      by_cases hrem : v - q ≤ 0
      · rw [if_pos hrem, if_pos hrem]; rfl
      · rw [if_neg hrem, if_neg hrem, ih (v - q)]
        obtain ⟨m, M, hM⟩ := minCover_cons_shape y t (v - q)
        rw [hM, List.getLast?_cons_cons]

theorem minCover_covers (L : List (Int × ℚ)) (v : ℚ) (h0 : 0 < v)
    (hle : v ≤ sideVolume L) :
    v ≤ sideVolume (minCover L v) ∧ sideVolume (minCover L v).dropLast < v := by
  induction L generalizing v with
  | nil =>
    exfalso
    simp [sideVolume] at hle
    linarith
  | cons x rest ih =>
    obtain ⟨p, q⟩ := x
    rw [minCover_cons]
    by_cases hrem : v - q ≤ 0
    · rw [if_pos hrem]
      refine ⟨?_, ?_⟩
      · simp only [sideVolume, List.map_cons, List.map_nil, List.sum_cons, List.sum_nil]
        linarith
      · simp only [List.dropLast_single, sideVolume, List.map_nil, List.sum_nil]
        exact h0
    · rw [if_neg hrem]
      have hq : q < v := by linarith
      have hrest : v - q ≤ sideVolume rest := by
        simp only [sideVolume, List.map_cons, List.sum_cons] at hle ⊢
        linarith
      have ih' := ih (v - q) (by linarith) hrest
      cases rest with
      | nil =>
        exfalso
        simp [sideVolume] at hrest
        linarith
      | cons y t =>
        obtain ⟨m, M, hM⟩ := minCover_cons_shape y t (v - q)
        rw [hM] at ih' ⊢
        refine ⟨?_, ?_⟩
        · simp only [sideVolume, List.map_cons, List.sum_cons] at ih' ⊢
          linarith [ih'.1]
        · rw [List.dropLast_cons₂]
          simp only [sideVolume, List.map_cons, List.sum_cons] at ih' ⊢
          linarith [ih'.2]

theorem filter_eq_minCover (lt : Int → Int → Prop) [DecidableRel lt]
    (hasym : ∀ a b, lt a b → ¬ lt b a)
    (L : List (Int × ℚ)) (v : ℚ) (brk : Int)
    (hp : L.Pairwise (fun x y => lt x.1 y.1))
    (hw : walkBreakKey L v = some brk) :
    L.filter (fun x => decide (¬ lt brk x.1)) = minCover L v := by
  induction L generalizing v with
  | nil => simp [walkBreakKey] at hw
  | cons x rest ih =>
    obtain ⟨p, q⟩ := x
    have hirr : ¬ lt p p := fun h => hasym p p h h
    cases rest with
    | nil =>
      injection hw with hw'
      subst hw'
      rw [minCover_cons]
      rw [List.filter_cons_of_pos (by simpa using hirr)]
      by_cases hrem : v - q ≤ 0
      · rw [if_pos hrem]; rfl
      · rw [if_neg hrem]; rfl
    | cons y t =>
      rw [walkBreakKey_cons] at hw
      rw [minCover_cons]
      by_cases hrem : v - q ≤ 0
      · rw [if_pos hrem] at hw
        injection hw with hw'
        subst hw'
        rw [if_pos hrem]
        rw [List.filter_cons_of_pos (by simpa using hirr)]
        have hdrop : ∀ z ∈ (y :: t), lt p z.1 := (List.pairwise_cons.mp hp).1
        rw [List.filter_eq_nil_iff.mpr ?_]
        intro z hz
        simp only [decide_not, Bool.not_eq_true', decide_eq_false_iff_not, not_not]
        exact hdrop z hz
      · rw [if_neg hrem] at hw
        rw [if_neg hrem]
        have hbrk_mem : brk ∈ (y :: t).map Prod.fst := walkBreakKey_mem _ _ _ hw
        have hpbrk : lt p brk := by
          obtain ⟨z, hz, hz'⟩ := List.mem_map.mp hbrk_mem
          have hpz := (List.pairwise_cons.mp hp).1 z hz
          rwa [hz'] at hpz
        rw [List.filter_cons_of_pos (by simpa using hasym p brk hpbrk)]
        rw [ih (v - q) (List.pairwise_cons.mp hp).2 hw]

/-- C3: for a sorted, deduplicated side with enough total liquidity, the book
walk `_get_book_side` (hence `get_bids`/`get_asks`) returns exactly the
minimal covering prefix of the side read from the best price outward: a
prefix whose cumulative volume reaches `maxVolume`, returned with the final
threshold-crossing level in full, and whose cumulative volume without that
final level is still short of `maxVolume` — never more levels than needed,
never fewer than required. -/
theorem C3_walk_returns_minimal_cover (isBid : Bool) (s : Side) (mv : ℚ) (prec : ℕ)
    (hsort : s.Pairwise (fun x y => x.1 < y.1))
    (h0 : 0 < mv) (hvol : mv ≤ sideVolume s) :
    getBookSide isBid s (some mv) prec
      = some ((minCover (iterOrder isBid s) mv).map
          (fun pq => (formatPrice prec pq.1, pq.2))) ∧
    (∃ n, minCover (iterOrder isBid s) mv = (iterOrder isBid s).take n) ∧
    mv ≤ sideVolume (minCover (iterOrder isBid s) mv) ∧
    sideVolume (minCover (iterOrder isBid s) mv).dropLast < mv := by
  have hvol' : mv ≤ sideVolume (iterOrder isBid s) := by
    cases isBid with
    | false => exact hvol
    | true =>
      show mv ≤ sideVolume s.reverse
      unfold sideVolume
      rw [List.map_reverse, List.sum_reverse]
      exact hvol
  have hne : iterOrder isBid s ≠ [] := by
    intro hnil
    rw [hnil] at hvol'
    simp [sideVolume] at hvol'
    linarith
  obtain ⟨brk, hbrk⟩ : ∃ brk, walkBreakKey (iterOrder isBid s) mv = some brk := by
    rw [walkBreakKey_eq_last]
    cases hL : iterOrder isBid s with
    | nil => exact absurd hL hne
    | cons m M =>
      obtain ⟨c, C, hc⟩ := minCover_cons_shape m M mv
      rw [hc]
      exact ⟨((c :: C).getLast (by simp)).1, by rw [List.getLast?_eq_getLast _ (by simp)]; rfl⟩
  refine ⟨?_, minCover_eq_take _ _,
    (minCover_covers _ _ h0 hvol').1, (minCover_covers _ _ h0 hvol').2⟩
  cases isBid with
  | false =>
    rw [show iterOrder false s = s from rfl] at hbrk ⊢
    have hunf : getBookSide false s (some mv) prec
        = match walkBreakKey s mv with
          | none => none
          | some k => some ((s.filter (fun pq => decide (pq.1 < k + 1))).map
              (fun (pq : Int × ℚ) => (formatPrice prec pq.1, pq.2))) := rfl
    rw [hunf, hbrk]
    show some ((s.filter (fun pq => decide (pq.1 < brk + 1))).map
        (fun (pq : Int × ℚ) => (formatPrice prec pq.1, pq.2))) = _
    have heq : s.filter (fun pq => decide (pq.1 < brk + 1))
        = s.filter (fun x => decide (¬ brk < x.1)) := by
      apply List.filter_congr
      intro x _
      simp only [decide_eq_decide]
      rw [Int.lt_add_one_iff]
      exact not_lt.symm
    rw [heq, filter_eq_minCover (· < ·) (fun a b h h' => lt_asymm h h') s mv brk hsort hbrk]
  | true =>
    rw [show iterOrder true s = s.reverse from rfl] at hbrk ⊢
    have hunf : getBookSide true s (some mv) prec
        = match walkBreakKey s.reverse mv with
          | none => none
          | some k => some ((s.filter (fun pq => decide (k ≤ pq.1))).reverse.map
              (fun (pq : Int × ℚ) => (formatPrice prec pq.1, pq.2))) := rfl
    rw [hunf, hbrk]
    show some ((s.filter (fun pq => decide (brk ≤ pq.1))).reverse.map
        (fun (pq : Int × ℚ) => (formatPrice prec pq.1, pq.2))) = _
    have heq : (s.filter (fun pq => decide (brk ≤ pq.1))).reverse
        = s.reverse.filter (fun x => decide (¬ (fun a b => b < a) brk x.1)) := by
      rw [List.filter_reverse]
      congr 1
      apply List.filter_congr
      intro x _
      simp only [decide_eq_decide]
      show brk ≤ x.1 ↔ ¬ x.1 < brk
      exact not_lt.symm
    rw [heq, filter_eq_minCover (fun a b => b < a) (fun a b h h' => lt_asymm h' h)
      s.reverse mv brk (by rw [List.pairwise_reverse]; exact hsort) hbrk]

/-- C3 witness: the spec's example — ask levels `{100:1, 101:2, 102:5}`,
`maxVolume = 2.5` — returns `[(100,1),(101,2)]`. -/
theorem C3_walk_returns_minimal_cover_witness :
    getBookSide false [(100, 1), (101, 2), (102, 5)] (some (5 / 2)) 0
      = some ((minCover (iterOrder false [(100, 1), (101, 2), (102, 5)]) (5 / 2)).map
          (fun pq => (formatPrice 0 pq.1, pq.2))) ∧
    minCover [((100 : Int), (1 : ℚ)), (101, 2), (102, 5)] (5 / 2) = [(100, 1), (101, 2)] := by
  constructor
  · exact (C3_walk_returns_minimal_cover false [(100, 1), (101, 2), (102, 5)] (5 / 2) 0
      (by norm_num) (by norm_num) (by norm_num [sideVolume])).1
  · rw [minCover_cons, if_neg (by norm_num), minCover_cons, if_pos (by norm_num)]


/-! ### Lemmas about ladder positivity and the crossed-book question -/

theorem mem_insertLevel (p : Int) (q : ℚ) (s : Side) (x : Int × ℚ)
    (h : x ∈ insertLevel p q s) : x = (p, q) ∨ x ∈ s := by
  induction s with
  | nil =>
    simp only [insertLevel, List.mem_singleton] at h
    exact Or.inl h
  | cons y rest ih =>
    obtain ⟨p', q'⟩ := y
    simp only [insertLevel] at h
    split_ifs at h with h1 h2
    · rcases List.mem_cons.mp h with h' | h'
      · exact Or.inl h'
      · exact Or.inr h'
    · rcases List.mem_cons.mp h with h' | h'
      · exact Or.inl h'
      · exact Or.inr (List.mem_cons_of_mem _ h')
    · rcases List.mem_cons.mp h with h' | h'
      · exact Or.inr (h' ▸ List.mem_cons_self _ _)
      · rcases ih h' with h'' | h''
        · exact Or.inl h''
        · exact Or.inr (List.mem_cons_of_mem _ h'')

theorem mem_removeLevel (p : Int) (s : Side) (x : Int × ℚ)
    (h : x ∈ removeLevel p s) : x ∈ s := by
  induction s with
  | nil =>
    simp [removeLevel] at h
  | cons y rest ih =>
    obtain ⟨p', q'⟩ := y
    simp only [removeLevel] at h
    split_ifs at h
    · exact List.mem_cons_of_mem _ h
    · rcases List.mem_cons.mp h with h' | h'
      · exact h' ▸ List.mem_cons_self _ _
      · exact List.mem_cons_of_mem _ (ih h')

theorem sidePos_splitUpsert (p : Int) (q : ℚ) (s : Side)
    (hs : sidePos s) (hq : 0 ≤ q) : sidePos (splitUpsert p q s) := by
  unfold splitUpsert
  split_ifs with h0
  · exact fun x hx => hs x (mem_removeLevel p s x hx)
  · intro x hx
    rcases mem_insertLevel p q s x hx with h | h
    · rw [h]
      exact lt_of_le_of_ne hq (Ne.symm h0)
    · exact hs x h

theorem sidePos_splitFold (l : List (Int × ℚ)) (acc : Side)
    (hacc : sidePos acc) (hl : ∀ x ∈ l, 0 ≤ x.2) :
    sidePos (l.foldl (fun (sd : Side) pq => splitUpsert pq.1 pq.2 sd) acc) := by
  induction l generalizing acc with
  | nil => exact hacc
  | cons y rest ih =>
    simp only [List.foldl_cons]
    exact ih (splitUpsert y.1 y.2 acc)
      (sidePos_splitUpsert y.1 y.2 acc hacc (hl y (List.mem_cons_self _ _)))
      (fun x hx => hl x (List.mem_cons_of_mem _ hx))

theorem mem_setAssoc {α : Type} (l : List (String × α)) (k : String) (v : α)
    (x : String × α) (h : x ∈ setAssoc l k v) : x = (k, v) ∨ x ∈ l := by
  induction l with
  | nil => simpa [setAssoc] using h
  | cons y rest ih =>
    obtain ⟨k', v'⟩ := y
    simp only [setAssoc] at h
    split_ifs at h
    · rcases List.mem_cons.mp h with h' | h'
      · exact Or.inl h'
      · exact Or.inr (List.mem_cons_of_mem _ h')
    · rcases List.mem_cons.mp h with h' | h'
      · exact Or.inr (h' ▸ List.mem_cons_self _ _)
      · rcases ih h' with h'' | h''
        · exact Or.inl h''
        · exact Or.inr (List.mem_cons_of_mem _ h'')

theorem getAssoc_mem {α : Type} (l : List (String × α)) (k : String) (v : α)
    (h : getAssoc l k = some v) : (k, v) ∈ l := by
  induction l with
  | nil => simp [getAssoc] at h
  | cons y rest ih =>
    obtain ⟨k', v'⟩ := y
    simp only [getAssoc] at h
    split_ifs at h with hk
    · injection h with h'
      subst hk h'
      exact List.mem_cons_self _ _
    · exact List.mem_cons_of_mem _ (ih h)

theorem statePos_applyEntry (pair : String) (st : OrderBookState) (e : BookEntry)
    (hst : statePos st) (he : entryNonneg e) : statePos (applyEntry pair st e) := by
  cases e with
  | snapshot bs as =>
    intro pb hpb
    simp only [applyEntry, applySnapshot] at hpb
    rcases mem_setAssoc _ _ _ _ hpb with h | h
    · rw [h]
      exact ⟨sidePos_splitFold bs [] (by intro x hx; simp at hx) he.1,
             sidePos_splitFold as [] (by intro x hx; simp at hx) he.2⟩
    · exact hst pb h
  | order isBid price qty =>
    intro pb hpb
    simp only [applyEntry, applyOrder] at hpb
    cases hget : getAssoc st.books pair with
    | none =>
      rw [hget] at hpb
      exact hst pb hpb
    | some bk =>
      rw [hget] at hpb
      have hbk := hst (pair, bk) (getAssoc_mem _ _ _ hget)
      rcases mem_setAssoc _ _ _ _ hpb with h | h
      · rw [h]
        cases isBid with
        | true =>
          exact ⟨sidePos_splitUpsert price qty bk.bids hbk.1 he, hbk.2⟩
        | false =>
          exact ⟨hbk.1, sidePos_splitUpsert price qty bk.asks hbk.2 he⟩
      · exact hst pb h
  | trade => exact hst

theorem statePos_foldEntries (pair : String) (entries : List BookEntry)
    (st : OrderBookState) (hst : statePos st)
    (hents : ∀ e ∈ entries, entryNonneg e) :
    statePos (entries.foldl (applyEntry pair) st) := by
  induction entries generalizing st with
  | nil => exact hst
  | cons e rest ih =>
    simp only [List.foldl_cons]
    exact ih (applyEntry pair st e)
      (statePos_applyEntry pair st e hst (hents e (List.mem_cons_self _ _)))
      (fun e' he' => hents e' (List.mem_cons_of_mem _ he'))



/-- C4: the claim asserts both that quantities are kept non-negative and that
the book never crosses.  The code enforces no crossed-book invariant: a valid
sequenced update stream — a snapshot with best bid 100 / best ask 101, then a
bid change at 102, all with positive quantities and correct sequence numbers —
produces a book whose best bid (102) is at or above its best ask (101). -/
theorem C4_counterexample :
    applyUpdates ⟨[], [], []⟩
        [⟨"XRPBTC", some 1, [.snapshot [(100, 1)] [(101, 1)]]⟩,
         ⟨"XRPBTC", some 2, [.order true 102 1]⟩]
      = .ok crossedBookState ∧
    crossedBookState.bestBid "XRPBTC" 0 = .ok (formatPrice 0 102) ∧
    crossedBookState.bestAsk "XRPBTC" 0 = .ok (formatPrice 0 101) ∧
    formatPrice 0 101 ≤ formatPrice 0 102 := by
  refine ⟨by decide, rfl, rfl, ?_⟩
  unfold formatPrice
  norm_num

/-- C4 (amended): the quantity half of the claim holds — starting from a
state whose stored levels all have positive quantity, a successful `update`
whose entries carry only non-negative quantities leaves every stored level
with positive quantity (a zero-quantity change removes its level, and is
never stored) — but no crossed-book invariant is maintained. -/
theorem C4_positive_quantities (st : OrderBookState) (u : BookUpdate)
    (st' : OrderBookState) (hst : statePos st)
    (hents : ∀ e ∈ u.entries, entryNonneg e)
    (h : st.update u = .ok st') : statePos st' := by
  simp only [OrderBookState.update] at h
  split at h
  · have hfold := statePos_foldEntries u.pair u.entries st hst hents
    split at h <;> injection h with h' <;> rw [← h']
    · exact hfold
    · intro pb hpb
      exact hfold pb hpb
  · exact absurd h (by simp)

/-- C4 witness: the crossed-book state itself still has all-positive
quantities (the updates that built it were non-negative). -/
theorem C4_positive_quantities_witness : statePos crossedBookState := by
  have h1 : statePos (⟨[], [], []⟩ : OrderBookState) := by
    intro pb hpb
    simp at hpb
  have step1 : OrderBookState.update ⟨[], [], []⟩
      ⟨"XRPBTC", some 1, [.snapshot [(100, 1)] [(101, 1)]]⟩
      = .ok ⟨[("XRPBTC", ⟨[(100, 1)], [(101, 1)]⟩)], [("XRPBTC", 2)], ["XRPBTC"]⟩ := by
    decide
  have step2 : OrderBookState.update
      (⟨[("XRPBTC", ⟨[(100, 1)], [(101, 1)]⟩)], [("XRPBTC", 2)], ["XRPBTC"]⟩ : OrderBookState)
      ⟨"XRPBTC", some 2, [.order true 102 1]⟩ = .ok crossedBookState := by
    decide
  have hmid := C4_positive_quantities ⟨[], [], []⟩
    ⟨"XRPBTC", some 1, [.snapshot [(100, 1)] [(101, 1)]]⟩
    ⟨[("XRPBTC", ⟨[(100, 1)], [(101, 1)]⟩)], [("XRPBTC", 2)], ["XRPBTC"]⟩ h1
    (by
      intro e he
      simp only [List.mem_singleton] at he
      subst he
      exact ⟨by intro x hx; simp at hx; subst hx; norm_num,
             by intro x hx; simp at hx; subst hx; norm_num⟩)
    step1
  exact C4_positive_quantities _ ⟨"XRPBTC", some 2, [.order true 102 1]⟩ _ hmid
    (by
      intro e he
      simp only [List.mem_singleton] at he
      subst he
      show (0 : ℚ) ≤ 1
      norm_num)
    step2

/-! ### Lemmas about the rebalancing loop -/

theorem foldl_max_mem (L : List (String × ℚ)) (t : List (String × ℚ))
    (acc : String × ℚ) (hacc : acc ∈ L) (hsub : ∀ z ∈ t, z ∈ L) :
    t.foldl (fun b z => if b.2 < z.2 then z else b) acc ∈ L := by
  induction t generalizing acc with
  | nil => exact hacc
  | cons z rest ih =>
    simp only [List.foldl_cons]
    apply ih
    · by_cases hlt : acc.2 < z.2
      · rw [if_pos hlt]
        exact hsub z (List.mem_cons_self _ _)
      · rw [if_neg hlt]
        exact hacc
    · intro w hw
      exact hsub w (List.mem_cons_of_mem _ hw)

theorem maxByVal_mem (l : List (String × ℚ)) (x : String × ℚ)
    (h : maxByVal l = some x) : x ∈ l := by
  cases l with
  | nil => simp [maxByVal] at h
  | cons y rest =>
    simp only [maxByVal, Option.some.injEq] at h
    subst h
    exact foldl_max_mem (y :: rest) rest y (List.mem_cons_self _ _)
      (fun z hz => List.mem_cons_of_mem _ hz)

theorem maxByVal_eq_none (l : List (String × ℚ)) :
    maxByVal l = none ↔ l = [] := by
  cases l <;> simp [maxByVal]

theorem mem_keysOf_of_mem {α : Type} {l : List (String × α)} {x : String × α}
    (h : x ∈ l) : x.1 ∈ keysOf l := List.mem_map_of_mem Prod.fst h

theorem removeKey_sublist {α : Type} (l : List (String × α)) (k : String) :
    List.Sublist (removeKey l k) l := by
  induction l with
  | nil => exact List.Sublist.refl _
  | cons y rest ih =>
    obtain ⟨k', v'⟩ := y
    simp only [removeKey]
    split_ifs
    · exact List.sublist_cons_self _ _
    · exact ih.cons₂ _

theorem mem_removeKey {α : Type} {l : List (String × α)} {k : String}
    {x : String × α} (h : x ∈ removeKey l k) : x ∈ l :=
  (removeKey_sublist l k).subset h

theorem removeKey_length {α : Type} (l : List (String × α)) (k : String)
    (h : k ∈ keysOf l) : (removeKey l k).length + 1 = l.length := by
  induction l with
  | nil => simp [keysOf] at h
  | cons y rest ih =>
    obtain ⟨k', v'⟩ := y
    simp only [removeKey]
    split_ifs with hk
    · simp
    · have h' : k ∈ keysOf rest := by
        simp only [keysOf, List.map_cons, List.mem_cons] at h
        rcases h with h | h
        · exact absurd h hk
        · exact h
      simp only [List.length_cons, ih h']

theorem setAssoc_keysOf {α : Type} (l : List (String × α)) (k : String) (v : α)
    (h : k ∈ keysOf l) : keysOf (setAssoc l k v) = keysOf l := by
  induction l with
  | nil => simp [keysOf] at h
  | cons y rest ih =>
    obtain ⟨k', v'⟩ := y
    simp only [setAssoc]
    split_ifs with hk
    · simp [keysOf, hk]
    · have h' : k ∈ keysOf rest := by
        simp only [keysOf, List.map_cons, List.mem_cons] at h
        rcases h with h | h
        · exact absurd h hk
        · exact h
      simp only [keysOf, List.map_cons] at ih ⊢
      rw [ih h']

theorem setAssoc_length {α : Type} (l : List (String × α)) (k : String) (v : α)
    (h : k ∈ keysOf l) : (setAssoc l k v).length = l.length := by
  have := congrArg List.length (setAssoc_keysOf l k v h)
  simpa [keysOf] using this

theorem removeKey_setAssoc {α : Type} (l : List (String × α)) (k : String) (v : α) :
    removeKey (setAssoc l k v) k = removeKey l k := by
  induction l with
  | nil => simp [setAssoc, removeKey]
  | cons y rest ih =>
    obtain ⟨k', v'⟩ := y
    simp only [setAssoc]
    split_ifs with hk
    · simp [removeKey, hk]
    · simp only [removeKey, if_neg hk, ih]

theorem keysOf_applyTransfer (bal : List (String × ℚ)) (src dst : String) (amt : ℚ) :
    keysOf (applyTransfer bal src dst amt) = keysOf bal := by
  unfold applyTransfer keysOf
  rw [List.map_map]
  apply List.map_congr_left
  intro x _
  show (if x.1 = src then (x.1, x.2 - amt)
        else if x.1 = dst then (x.1, x.2 + amt) else x).1 = x.1
  split_ifs <;> rfl

theorem countKey_cons {α : Type} (k' : String) (v' : α)
    (rest : List (String × α)) (k : String) :
    countKey ((k', v') :: rest) k = (if k' = k then 1 else 0) + countKey rest k := by
  by_cases hk : k' = k <;> (simp [countKey, List.filter_cons, hk]; try omega)

theorem countKey_eq_count {α : Type} (l : List (String × α)) (k : String) :
    countKey l k = (keysOf l).count k := by
  induction l with
  | nil => rfl
  | cons y rest ih =>
    obtain ⟨k', v'⟩ := y
    rw [countKey_cons, ih]
    show _ = List.count k (k' :: keysOf rest)
    rw [List.count_cons]
    by_cases hk : k' = k <;> (simp [hk]; try omega)

theorem countKey_eq_one {α : Type} (l : List (String × α)) (k : String)
    (hnd : (keysOf l).Nodup) (h : k ∈ keysOf l) : countKey l k = 1 := by
  rw [countKey_eq_count]
  exact List.count_eq_one_of_mem hnd h

theorem valuesSum_cons (k : String) (v : ℚ) (rest : List (String × ℚ)) :
    valuesSum ((k, v) :: rest) = v + valuesSum rest := by
  simp [valuesSum]

theorem valuesSum_applyTransfer (l : List (String × ℚ)) (src dst : String)
    (amt : ℚ) (hne : src ≠ dst) :
    valuesSum (applyTransfer l src dst amt)
      = valuesSum l - (countKey l src : ℚ) * amt + (countKey l dst : ℚ) * amt := by
  induction l with
  | nil => simp [valuesSum, applyTransfer, countKey]
  | cons y rest ih =>
    obtain ⟨k, v⟩ := y
    simp only [applyTransfer, List.map_cons] at ih ⊢
    by_cases hs : k = src
    · have hd : ¬ k = dst := fun h => hne (hs ▸ h ▸ rfl)
      rw [show (if (k, v).1 = src then ((k, v).1, (k, v).2 - amt)
            else if (k, v).1 = dst then ((k, v).1, (k, v).2 + amt) else (k, v))
          = (k, v - amt) from by simp [hs]]
      rw [valuesSum_cons, ih, valuesSum_cons, countKey_cons, countKey_cons,
        if_pos hs, if_neg hd]
      push_cast
      ring
    · by_cases hdt : k = dst
      · rw [show (if (k, v).1 = src then ((k, v).1, (k, v).2 - amt)
              else if (k, v).1 = dst then ((k, v).1, (k, v).2 + amt) else (k, v))
            = (k, v + amt) from by simp [hs, hdt, Ne.symm hne]]
        rw [valuesSum_cons, ih, valuesSum_cons, countKey_cons, countKey_cons,
          if_neg hs, if_pos hdt]
        push_cast
        ring
      · rw [show (if (k, v).1 = src then ((k, v).1, (k, v).2 - amt)
              else if (k, v).1 = dst then ((k, v).1, (k, v).2 + amt) else (k, v))
            = (k, v) from by simp [hs, hdt]]
        rw [valuesSum_cons, ih, valuesSum_cons, countKey_cons, countKey_cons,
          if_neg hs, if_neg hdt]
        push_cast
        ring

theorem valuesSum_transfer_conserves (l : List (String × ℚ)) (src dst : String)
    (amt : ℚ) (hnd : (keysOf l).Nodup) (hs : src ∈ keysOf l) (hd : dst ∈ keysOf l)
    (hne : src ≠ dst) :
    valuesSum (applyTransfer l src dst amt) = valuesSum l := by
  rw [valuesSum_applyTransfer l src dst amt hne,
    countKey_eq_one l src hnd hs, countKey_eq_one l dst hnd hd]
  push_cast
  ring

theorem partitionDC_keys (avg os mt : ℚ) (l : List (String × ℚ)) :
    List.Sublist (keysOf (partitionDC avg os mt l).1) (keysOf l) ∧
    List.Sublist (keysOf (partitionDC avg os mt l).2) (keysOf l) := by
  induction l with
  | nil => exact ⟨List.Sublist.refl _, List.Sublist.refl _⟩
  | cons y rest ih =>
    obtain ⟨ex, bal⟩ := y
    simp only [partitionDC]
    split_ifs
    · exact ⟨List.Sublist.cons₂ _ ih.1, List.Sublist.cons _ ih.2⟩
    · exact ⟨List.Sublist.cons _ ih.1, List.Sublist.cons₂ _ ih.2⟩
    · exact ⟨List.Sublist.cons _ ih.1, List.Sublist.cons _ ih.2⟩

theorem partitionDC_disj (avg os mt : ℚ) (l : List (String × ℚ))
    (hnd : (keysOf l).Nodup) :
    ∀ k ∈ keysOf (partitionDC avg os mt l).1,
      k ∉ keysOf (partitionDC avg os mt l).2 := by
  induction l with
  | nil => intro k hk; simp [partitionDC, keysOf] at hk
  | cons y rest ih =>
    obtain ⟨ex, bal⟩ := y
    have hhead : ex ∉ keysOf rest := (List.nodup_cons.mp hnd).1
    have htail := ih (List.nodup_cons.mp hnd).2
    simp only [partitionDC]
    split_ifs
    · intro k hk
      rcases List.mem_cons.mp hk with h | h
      · subst h
        intro hc
        exact hhead ((partitionDC_keys avg os mt rest).2.subset hc)
      · exact htail k h
    · intro k hk hc
      rcases List.mem_cons.mp hc with h | h
      · subst h
        exact hhead ((partitionDC_keys avg os mt rest).1.subset hk)
      · exact htail k hk h
    · exact htail

theorem partitionDC_creditsMin (avg os mt : ℚ) (l : List (String × ℚ)) :
    ∀ x ∈ (partitionDC avg os mt l).2, mt ≤ x.2 := by
  induction l with
  | nil => intro x hx; simp [partitionDC] at hx
  | cons y rest ih =>
    obtain ⟨ex, bal⟩ := y
    simp only [partitionDC]
    split_ifs with h1 h2
    · exact ih
    · intro x hx
      rcases List.mem_cons.mp hx with h | h
      · rw [h]
        show mt ≤ bal - avg
        linarith
      · exact ih x h
    · exact ih

theorem computeDebtsCredits_inv (balances : List (String × ℚ))
    (orderSize minT : ℚ) (hnd : (keysOf balances).Nodup) :
    RebalInv minT ⟨(computeDebtsCredits balances orderSize minT).1,
                   (computeDebtsCredits balances orderSize minT).2, balances⟩ := by
  have hkeys := partitionDC_keys ((valuesSum balances - orderSize) / (balances.length : ℚ))
    orderSize minT balances
  have hdisj := partitionDC_disj ((valuesSum balances - orderSize) / (balances.length : ℚ))
    orderSize minT balances hnd
  have hmin := partitionDC_creditsMin
    ((valuesSum balances - orderSize) / (balances.length : ℚ)) orderSize minT balances
  exact
    { balNodup := hnd
      debtsNodup := hkeys.1.nodup hnd
      creditsNodup := hkeys.2.nodup hnd
      debtsSub := fun k hk => hkeys.1.subset hk
      creditsSub := fun k hk => hkeys.2.subset hk
      disj := hdisj
      creditsMin := hmin }

theorem redistributeStep_done_eq (minT : ℚ) (s s' : RebalState)
    (h : redistributeStep minT s = .done s') :
    s' = s ∧ (s.debts = [] ∨ s.credits = []) := by
  unfold redistributeStep at h
  cases hd : maxByVal s.debts with
  | none =>
    simp only [hd] at h
    injection h with h'
    exact ⟨h'.symm, Or.inl ((maxByVal_eq_none _).mp hd)⟩
  | some d =>
    obtain ⟨toEx, debt⟩ := d
    cases hc : maxByVal s.credits with
    | none =>
      simp only [hd, hc] at h
      injection h with h'
      exact ⟨h'.symm, Or.inr ((maxByVal_eq_none _).mp hc)⟩
    | some c =>
      obtain ⟨fromEx, credit⟩ := c
      simp only [hd, hc] at h
      split_ifs at h

theorem redistributeStep_assertFail_eq (minT : ℚ) (s s' : RebalState)
    (h : redistributeStep minT s = .assertFail s') : s' = s := by
  unfold redistributeStep at h
  cases hd : maxByVal s.debts with
  | none =>
    simp only [hd] at h
    exact absurd h (by simp)
  | some d =>
    obtain ⟨toEx, debt⟩ := d
    cases hc : maxByVal s.credits with
    | none =>
      simp only [hd, hc] at h
      exact absurd h (by simp)
    | some c =>
      obtain ⟨fromEx, credit⟩ := c
      simp only [hd, hc] at h
      split_ifs at h
      injection h with h'
      exact h'.symm

theorem redistributeStep_no_assertFail (minT : ℚ) (s : RebalState)
    (hinv : RebalInv minT s) (s' : RebalState) :
    redistributeStep minT s ≠ .assertFail s' := by
  intro h
  unfold redistributeStep at h
  cases hd : maxByVal s.debts with
  | none =>
    simp only [hd] at h
    exact absurd h (by simp)
  | some d =>
    obtain ⟨toEx, debt⟩ := d
    cases hc : maxByVal s.credits with
    | none =>
      simp only [hd, hc] at h
      exact absurd h (by simp)
    | some c =>
      obtain ⟨fromEx, credit⟩ := c
      have hcreditMin : minT ≤ credit := hinv.creditsMin _ (maxByVal_mem _ _ hc)
      simp only [hd, hc] at h
      split_ifs at h with h1 h2
      linarith

theorem redistributeStep_step_props (minT : ℚ) (s : RebalState) (t : TransferRec)
    (s' : RebalState) (hinv : RebalInv minT s)
    (h : redistributeStep minT s = .step t s') :
    RebalInv minT s' ∧
    valuesSum s'.balances = valuesSum s.balances ∧
    keysOf s'.balances = keysOf s.balances ∧
    t.amount = max (min t.debt t.credit) minT ∧
    s'.debts.length + s'.credits.length < s.debts.length + s.credits.length := by
  unfold redistributeStep at h
  cases hd : maxByVal s.debts with
  | none =>
    simp only [hd] at h
    exact absurd h (by simp)
  | some d =>
    obtain ⟨toEx, debt⟩ := d
    cases hc : maxByVal s.credits with
    | none =>
      simp only [hd, hc] at h
      exact absurd h (by simp)
    | some c =>
      obtain ⟨fromEx, credit⟩ := c
      simp only [hd, hc] at h
      have hdm : (toEx, debt) ∈ s.debts := maxByVal_mem _ _ hd
      have hcm : (fromEx, credit) ∈ s.credits := maxByVal_mem _ _ hc
      have htoK : toEx ∈ keysOf s.debts := mem_keysOf_of_mem hdm
      have hfromK : fromEx ∈ keysOf s.credits := mem_keysOf_of_mem hcm
      have hfnet : fromEx ≠ toEx := fun he => hinv.disj toEx htoK (he ▸ hfromK)
      have hto_bal : toEx ∈ keysOf s.balances := hinv.debtsSub _ htoK
      have hfrom_bal : fromEx ∈ keysOf s.balances := hinv.creditsSub _ hfromK
      have hcreditMin : minT ≤ credit := hinv.creditsMin _ hcm
      have hbalK : ∀ src dst amt,
          keysOf (applyTransfer s.balances src dst amt) = keysOf s.balances :=
        fun src dst amt => keysOf_applyTransfer s.balances src dst amt
      have hcons : ∀ amt,
          valuesSum (applyTransfer s.balances fromEx toEx amt) = valuesSum s.balances :=
        fun amt => valuesSum_transfer_conserves s.balances fromEx toEx amt
          hinv.balNodup hfrom_bal hto_bal hfnet
      have hRmSub : ∀ v : ℚ, List.Sublist
          (keysOf (removeKey (setAssoc s.credits fromEx v) fromEx)) (keysOf s.credits) := by
        intro v
        rw [removeKey_setAssoc]
        exact (removeKey_sublist _ _).map _
      have hRmMem : ∀ (v : ℚ) (x : String × ℚ),
          x ∈ removeKey (setAssoc s.credits fromEx v) fromEx → x ∈ s.credits := by
        intro v x hx
        rw [removeKey_setAssoc] at hx
        exact mem_removeKey hx
      have hSetK : ∀ v : ℚ, keysOf (setAssoc s.credits fromEx v) = keysOf s.credits :=
        fun v => setAssoc_keysOf _ _ _ hfromK
      have hDebtsRm : List.Sublist (keysOf (removeKey s.debts toEx)) (keysOf s.debts) :=
        (removeKey_sublist _ _).map _
      have hDebtsSet : ∀ v : ℚ, keysOf (setAssoc s.debts toEx v) = keysOf s.debts :=
        fun v => setAssoc_keysOf _ _ _ htoK
      have hCredRm : List.Sublist (keysOf (removeKey s.credits fromEx)) (keysOf s.credits) :=
        (removeKey_sublist _ _).map _
      have hDebtsLen := removeKey_length s.debts toEx htoK
      have hCredLen := removeKey_length s.credits fromEx hfromK
      split_ifs at h with h1 hc' h2
      · -- debt < credit, and the creditor's remainder falls below min_transfer
        injection h with ht hs'
        subst ht
        subst hs'
        refine ⟨?_, hcons _, hbalK _ _ _, ?_, ?_⟩
        · exact
            { balNodup := by rw [show keysOf (applyTransfer s.balances fromEx toEx
                  (max debt minT)) = keysOf s.balances from hbalK _ _ _]; exact hinv.balNodup
              debtsNodup := hDebtsRm.nodup hinv.debtsNodup
              creditsNodup := (hRmSub _).nodup hinv.creditsNodup
              debtsSub := fun k hk => by
                rw [show keysOf (applyTransfer s.balances fromEx toEx (max debt minT))
                    = keysOf s.balances from hbalK _ _ _]
                exact hinv.debtsSub k (hDebtsRm.subset hk)
              creditsSub := fun k hk => by
                rw [show keysOf (applyTransfer s.balances fromEx toEx (max debt minT))
                    = keysOf s.balances from hbalK _ _ _]
                exact hinv.creditsSub k ((hRmSub _).subset hk)
              disj := fun k hk hkc =>
                hinv.disj k (hDebtsRm.subset hk) ((hRmSub _).subset hkc)
              creditsMin := fun x hx => hinv.creditsMin x (hRmMem _ x hx) }
        · show max debt minT = max (min debt credit) minT
          rw [min_eq_left (le_of_lt h1)]
        · have hle := ((hRmSub (credit - max debt minT)).length_le)
          simp only [keysOf, List.length_map] at hle
          show (removeKey s.debts toEx).length
              + (removeKey (setAssoc s.credits fromEx (credit - max debt minT)) fromEx).length
              < s.debts.length + s.credits.length
          omega
      · -- debt < credit, creditor keeps the remainder
        injection h with ht hs'
        subst ht
        subst hs'
        refine ⟨?_, hcons _, hbalK _ _ _, ?_, ?_⟩
        · exact
            { balNodup := by rw [show keysOf (applyTransfer s.balances fromEx toEx
                  (max debt minT)) = keysOf s.balances from hbalK _ _ _]; exact hinv.balNodup
              debtsNodup := hDebtsRm.nodup hinv.debtsNodup
              creditsNodup := by rw [hSetK _]; exact hinv.creditsNodup
              debtsSub := fun k hk => by
                rw [show keysOf (applyTransfer s.balances fromEx toEx (max debt minT))
                    = keysOf s.balances from hbalK _ _ _]
                exact hinv.debtsSub k (hDebtsRm.subset hk)
              creditsSub := fun k hk => by
                rw [show keysOf (applyTransfer s.balances fromEx toEx (max debt minT))
                    = keysOf s.balances from hbalK _ _ _]
                apply hinv.creditsSub k
                rwa [hSetK _] at hk
              disj := fun k hk hkc => by
                rw [hSetK _] at hkc
                exact hinv.disj k (hDebtsRm.subset hk) hkc
              creditsMin := fun x hx => by
                rcases mem_setAssoc _ _ _ _ hx with h' | h'
                · rw [h']
                  exact not_lt.mp hc'
                · exact hinv.creditsMin x h' }
        · show max debt minT = max (min debt credit) minT
          rw [min_eq_left (le_of_lt h1)]
        · have hlen : (setAssoc s.credits fromEx (credit - max debt minT)).length
              = s.credits.length := setAssoc_length _ _ _ hfromK
          show (removeKey s.debts toEx).length
              + (setAssoc s.credits fromEx (credit - max debt minT)).length
              < s.debts.length + s.credits.length
          omega
      · -- credit ≤ debt and the assert passed: transfer the whole credit
        injection h with ht hs'
        subst ht
        subst hs'
        refine ⟨?_, hcons _, hbalK _ _ _, ?_, ?_⟩
        · exact
            { balNodup := by rw [show keysOf (applyTransfer s.balances fromEx toEx credit)
                  = keysOf s.balances from hbalK _ _ _]; exact hinv.balNodup
              debtsNodup := by rw [hDebtsSet _]; exact hinv.debtsNodup
              creditsNodup := hCredRm.nodup hinv.creditsNodup
              debtsSub := fun k hk => by
                rw [show keysOf (applyTransfer s.balances fromEx toEx credit)
                    = keysOf s.balances from hbalK _ _ _]
                apply hinv.debtsSub k
                rwa [hDebtsSet _] at hk
              creditsSub := fun k hk => by
                rw [show keysOf (applyTransfer s.balances fromEx toEx credit)
                    = keysOf s.balances from hbalK _ _ _]
                exact hinv.creditsSub k (hCredRm.subset hk)
              disj := fun k hk hkc => by
                rw [hDebtsSet _] at hk
                exact hinv.disj k hk (hCredRm.subset hkc)
              creditsMin := fun x hx => hinv.creditsMin x (mem_removeKey hx) }
        · show credit = max (min debt credit) minT
          rw [min_eq_right (not_lt.mp h1), max_eq_left (not_lt.mp h2)]
        · have hlen : (setAssoc s.debts toEx (debt - credit)).length = s.debts.length :=
            setAssoc_length _ _ _ htoK
          show (setAssoc s.debts toEx (debt - credit)).length
              + (removeKey s.credits fromEx).length
              < s.debts.length + s.credits.length
          omega

theorem redistributeLoop_conserves (minT : ℚ) (fuel : ℕ) :
    ∀ s : RebalState, RebalInv minT s →
      valuesSum (redistributeLoop minT fuel s).1.balances = valuesSum s.balances ∧
      ∀ t ∈ (redistributeLoop minT fuel s).2.1,
        t.amount = max (min t.debt t.credit) minT := by
  induction fuel with
  | zero =>
    intro s _
    exact ⟨rfl, by intro t ht; simp [redistributeLoop] at ht⟩
  | succ n ih =>
    intro s hinv
    cases hstep : redistributeStep minT s with
    | done s' =>
      obtain ⟨heq, _⟩ := redistributeStep_done_eq minT s s' hstep
      subst heq
      refine ⟨?_, ?_⟩
      · simp only [redistributeLoop, hstep]
      · intro t ht
        simp only [redistributeLoop, hstep, List.not_mem_nil] at ht
    | assertFail s' =>
      exact absurd hstep (redistributeStep_no_assertFail minT s hinv s')
    | step t' s' =>
      obtain ⟨hinv', hcons, _, hamt, _⟩ :=
        redistributeStep_step_props minT s t' s' hinv hstep
      obtain ⟨ihc, iht⟩ := ih s' hinv'
      refine ⟨?_, ?_⟩
      · show valuesSum (redistributeLoop minT (n + 1) s).1.balances = _
        simp only [redistributeLoop, hstep]
        rw [ihc, hcons]
      · intro t ht
        simp only [redistributeLoop, hstep, List.mem_cons] at ht
        rcases ht with ht | ht
        · rw [ht]
          exact hamt
        · exact iht t ht

theorem redistributeLoop_completes (minT : ℚ) (fuel : ℕ) :
    ∀ s : RebalState, RebalInv minT s →
      s.debts.length + s.credits.length ≤ fuel →
      (redistributeLoop minT fuel s).2.2 = true := by
  induction fuel with
  | zero =>
    intro s _ hlen
    have hd : s.debts = [] := List.length_eq_zero.mp (by omega)
    simp [redistributeLoop, hd]
  | succ n ih =>
    intro s hinv hlen
    cases hstep : redistributeStep minT s with
    | done s' => simp [redistributeLoop, hstep]
    | assertFail s' =>
      exact absurd hstep (redistributeStep_no_assertFail minT s hinv s')
    | step t' s' =>
      obtain ⟨hinv', _, _, _, hdec⟩ :=
        redistributeStep_step_props minT s t' s' hinv hstep
      show (redistributeLoop minT (n + 1) s).2.2 = true
      simp only [redistributeLoop, hstep]
      exact ih s' hinv' (by omega)

theorem redistributeLoop_trace_le (minT : ℚ) (fuel : ℕ) :
    ∀ s : RebalState, (redistributeLoop minT fuel s).2.1.length ≤ fuel := by
  induction fuel with
  | zero => intro s; simp [redistributeLoop]
  | succ n ih =>
    intro s
    cases hstep : redistributeStep minT s with
    | done s' => simp [redistributeLoop, hstep]
    | assertFail s' => simp [redistributeLoop, hstep]
    | step t' s' =>
      simp only [redistributeLoop, hstep, List.length_cons]
      have := ih s'
      omega

/-- C5: rebalancing conserves funds.  For any per-exchange balance sheet (one
entry per exchange) and any fuel, running the `while debts and credits` loop
of `_redistribute_funds` leaves the total balance across exchanges unchanged —
each executed transfer debits the creditor by exactly the amount credited to
the debtor — and every executed transfer's amount is
`max(min(debt, credit), min_transfer)`: the smaller of the outstanding debt
and credit, but never less than the minimum transfer size. -/
theorem C5_rebalancing_conservation (balances : List (String × ℚ))
    (orderSize minT : ℚ) (fuel : ℕ) (hnd : (keysOf balances).Nodup) :
    valuesSum (redistributeLoop minT fuel
        ⟨(computeDebtsCredits balances orderSize minT).1,
         (computeDebtsCredits balances orderSize minT).2, balances⟩).1.balances
      = valuesSum balances ∧
    ∀ t ∈ (redistributeLoop minT fuel
        ⟨(computeDebtsCredits balances orderSize minT).1,
         (computeDebtsCredits balances orderSize minT).2, balances⟩).2.1,
      t.amount = max (min t.debt t.credit) minT :=
  redistributeLoop_conserves minT fuel _
    (computeDebtsCredits_inv balances orderSize minT hnd)

/-- C5 witness: a concrete three-exchange sheet (10, 0, 2) with order size 1
and minimum transfer 1 is rebalanced with the total of 12 conserved. -/
theorem C5_rebalancing_conservation_witness :
    valuesSum (redistributeLoop 1 (((computeDebtsCredits [("a", 10), ("b", 0), ("c", 2)] 1 1).1).length
          + ((computeDebtsCredits [("a", 10), ("b", 0), ("c", 2)] 1 1).2).length)
        ⟨(computeDebtsCredits [("a", 10), ("b", 0), ("c", 2)] 1 1).1,
         (computeDebtsCredits [("a", 10), ("b", 0), ("c", 2)] 1 1).2,
         [("a", 10), ("b", 0), ("c", 2)]⟩).1.balances
      = valuesSum [("a", 10), ("b", 0), ("c", 2)] :=
  (C5_rebalancing_conservation [("a", 10), ("b", 0), ("c", 2)] 1 1 _ (by decide)).1

/-- C10: the rebalancing loop terminates within `|debts| + |credits|`
iterations — each iteration removes at least one entry from the debtor or the
creditor map — and the in-loop `assert credit >= min_transfer` never fails:
running `redistribute` (the loop with exactly that much fuel) reaches the
loop's exit condition, flagged `true`, and executes at most that many
transfers. -/
theorem C10_rebalancing_terminates (balances : List (String × ℚ))
    (orderSize minT : ℚ) (hnd : (keysOf balances).Nodup) :
    (redistribute balances orderSize minT).2.2 = true ∧
    (redistribute balances orderSize minT).2.1.length
      ≤ (computeDebtsCredits balances orderSize minT).1.length
        + (computeDebtsCredits balances orderSize minT).2.length := by
  constructor
  · exact redistributeLoop_completes minT _ _
      (computeDebtsCredits_inv balances orderSize minT hnd) le_rfl
  · exact redistributeLoop_trace_le minT _ _

/-- C10 witness: the concrete sheet (10, 0, 2) finishes with the flag set. -/
theorem C10_rebalancing_terminates_witness :
    (redistribute [("a", 10), ("b", 0), ("c", 2)] 1 1).2.2 = true :=
  (C10_rebalancing_terminates [("a", 10), ("b", 0), ("c", 2)] 1 1 (by decide)).1

/-! ### Lemmas about the spec-modelled opportunity sizer -/

theorem addCand_addCand (fee s1 a1 b1 s2 a2 b2 : ℚ) (c : SizeCand) :
    addCand fee s1 a1 b1 (addCand fee s2 a2 b2 c)
      = addCand fee (s1 + s2) (a1 + a2) (b1 + b2) c := by
  simp only [addCand, SizeCand.mk.injEq]
  have e1 : s1 + (s2 + c.size) = s1 + s2 + c.size := by ring
  have e2 : a1 + (a2 + c.askCost) = a1 + a2 + c.askCost := by ring
  have e3 : b1 + (b2 + c.bidCost) = b1 + b2 + c.bidCost := by ring
  rw [e1, e2, e3]
  exact ⟨rfl, rfl, rfl, rfl⟩

theorem candsFrom_shift (fee : ℚ) (ms : List BookMatch) :
    ∀ size ac bc : ℚ, candsFrom fee size ac bc ms
      = (candsFrom fee 0 0 0 ms).map (addCand fee size ac bc) := by
  induction ms with
  | nil => intro size ac bc; rfl
  | cons m rest ih =>
    intro size ac bc
    simp only [candsFrom, zero_add, List.map_cons]
    congr 1
    rw [ih (size + m.qty) (ac + m.askPrice * m.qty) (bc + m.bidPrice * m.qty),
      ih m.qty (m.askPrice * m.qty) (m.bidPrice * m.qty), List.map_map]
    apply List.map_congr_left
    intro c _
    show addCand fee (size + m.qty) (ac + m.askPrice * m.qty) (bc + m.bidPrice * m.qty) c
      = addCand fee size ac bc (addCand fee m.qty (m.askPrice * m.qty) (m.bidPrice * m.qty) c)
    rw [addCand_addCand]

theorem candList_cons (fee : ℚ) (m : BookMatch) (ms : List BookMatch) :
    candList fee (m :: ms)
      = candAt fee (m :: ms) 1
        :: (candList fee ms).map
            (addCand fee m.qty (m.askPrice * m.qty) (m.bidPrice * m.qty)) := by
  unfold candList
  rw [List.length_cons, List.range_succ_eq_map]
  simp only [List.map_cons, List.map_map]
  congr 1

theorem candsFrom_eq_candList (fee : ℚ) (ms : List BookMatch) :
    candsFrom fee 0 0 0 ms = candList fee ms := by
  induction ms with
  | nil => rfl
  | cons m rest ih =>
    rw [candList_cons]
    simp only [candsFrom, zero_add]
    congr 1
    · show (⟨m.qty, m.askPrice * m.qty, m.bidPrice * m.qty,
          netPctOf fee (m.askPrice * m.qty) (m.bidPrice * m.qty) m.qty⟩ : SizeCand)
        = candAt fee (m :: rest) 1
      simp only [candAt, List.take_succ_cons, List.take_zero, List.map_cons, List.map_nil,
        List.sum_cons, List.sum_nil, add_zero]
    · rw [← ih, candsFrom_shift fee rest m.qty (m.askPrice * m.qty) (m.bidPrice * m.qty)]

theorem onePass_foldBest (fee : ℚ) (ms : List BookMatch) :
    ∀ size ac bc best,
      (ms.foldl (onePassStep fee) (size, ac, bc, best)).2.2.2
        = foldBest best (candsFrom fee size ac bc ms) := by
  induction ms with
  | nil => intros; rfl
  | cons m rest ih =>
    intro size ac bc best
    simp only [List.foldl_cons, onePassStep, candsFrom, foldBest, List.foldl_cons]
    exact ih _ _ _ _

theorem argmaxPct_eq_none (cs : List SizeCand) : argmaxPct cs = none ↔ cs = [] := by
  cases cs with
  | nil => simp [argmaxPct]
  | cons c rest =>
    simp only [argmaxPct]
    cases argmaxPct rest with
    | none => simp
    | some b =>
      show (if c.netPct < b.netPct then some b else some c) = none ↔ c :: rest = []
      split_ifs <;> simp

theorem foldBest_some_argmax (cs : List SizeCand) :
    ∀ m : SizeCand, argmaxPct cs = some m →
      ∀ b : SizeCand, foldBest (some b) cs
        = if b.netPct < m.netPct then some m else some b := by
  induction cs with
  | nil => intro m hm; simp [argmaxPct] at hm
  | cons c rest ih =>
    intro m hm b
    have hstep : foldBest (some b) (c :: rest)
        = foldBest (if b.netPct < c.netPct then some c else some b) rest := by
      simp only [foldBest, List.foldl_cons]
    rw [hstep]
    cases ham : argmaxPct rest with
    | none =>
      have hrest : rest = [] := (argmaxPct_eq_none rest).mp ham
      subst hrest
      have hmc : c = m := by
        simp [argmaxPct] at hm
        exact hm
      subst hmc
      rfl
    | some mr =>
      have ihr := ih mr ham
      simp only [argmaxPct, ham] at hm
      by_cases hbc : b.netPct < c.netPct
      · rw [if_pos hbc, ihr c]
        by_cases hcm : c.netPct < mr.netPct
        · rw [if_pos hcm] at hm ⊢
          injection hm with hm'
          subst hm'
          rw [if_pos (lt_trans hbc hcm)]
        · rw [if_neg hcm] at hm ⊢
          injection hm with hm'
          subst hm'
          rw [if_pos hbc]
      · rw [if_neg hbc, ihr b]
        by_cases hcm : c.netPct < mr.netPct
        · rw [if_pos hcm] at hm
          injection hm with hm'
          subst hm'
          rfl
        · rw [if_neg hcm] at hm
          injection hm with hm'
          subst hm'
          rw [if_neg hbc]
          by_cases hbm : b.netPct < mr.netPct
          · exfalso
            exact hbc (lt_of_lt_of_le hbm (not_lt.mp hcm))
          · rw [if_neg hbm]

theorem foldBest_none (cs : List SizeCand) : foldBest none cs = argmaxPct cs := by
  cases cs with
  | nil => rfl
  | cons c rest =>
    have hstep : foldBest none (c :: rest) = foldBest (some c) rest := by
      simp only [foldBest, List.foldl_cons]
    rw [hstep]
    cases ham : argmaxPct rest with
    | none =>
      have hrest : rest = [] := (argmaxPct_eq_none rest).mp ham
      subst hrest
      simp [argmaxPct, foldBest]
    | some m =>
      rw [foldBest_some_argmax rest m ham c]
      simp only [argmaxPct, ham]

theorem argmaxPct_le (cs : List SizeCand) (b : SizeCand)
    (h : argmaxPct cs = some b) : ∀ c ∈ cs, c.netPct ≤ b.netPct := by
  induction cs generalizing b with
  | nil => simp [argmaxPct] at h
  | cons c rest ih =>
    simp only [argmaxPct] at h
    cases ham : argmaxPct rest with
    | none =>
      simp only [ham] at h
      injection h with h'
      subst h'
      have hrest : rest = [] := (argmaxPct_eq_none rest).mp ham
      subst hrest
      intro x hx
      rw [List.mem_singleton.mp hx]
    | some m =>
      simp only [ham] at h
      intro x hx
      rcases List.mem_cons.mp hx with hx | hx
      · subst hx
        split_ifs at h with hcm
        · injection h with h'
          subst h'
          exact le_of_lt hcm
        · injection h with h'
          subst h'
          exact le_rfl
      · have hxm := ih m ham x hx
        split_ifs at h with hcm
        · injection h with h'
          subst h'
          exact hxm
        · injection h with h'
          subst h'
          exact le_trans hxm (not_lt.mp hcm)

/-- C1: over the prefix matches produced by the order-book co-walk of two
venues' levels, the one-pass sizer — accumulating size and costs and tracking
the best-seen candidate by net percent profit — returns exactly the candidate
the brute-force reference finds by recomputing net percent profit from
scratch at every candidate prefix size, and that candidate's net percent
profit dominates every prefix candidate's.  (The sizer is modelled from the
spec: `src/coinbitrage/engine.py` contains no book co-walk.) -/
theorem C1_one_pass_equals_brute_force (fee : ℚ) (asks bids : List (ℚ × ℚ))
    (bound : ℚ) :
    onePassBest fee (coWalk asks bids bound)
      = bruteForceBest fee (coWalk asks bids bound) ∧
    ∀ best, onePassBest fee (coWalk asks bids bound) = some best →
      ∀ c ∈ candList fee (coWalk asks bids bound), c.netPct ≤ best.netPct := by
  have key : ∀ ms : List BookMatch, onePassBest fee ms = bruteForceBest fee ms := by
    intro ms
    unfold onePassBest bruteForceBest
    rw [onePass_foldBest fee ms 0 0 0, candsFrom_eq_candList, foldBest_none]
  refine ⟨key _, ?_⟩
  intro best hbest c hc
  rw [key _] at hbest
  exact argmaxPct_le _ best hbest c hc

/-- C1 witness: the spec's example books — buy-venue asks `{100:2, 101:3}`,
sell-venue bids `{103:1, 102:4}`, zero fees — evaluated through the theorem. -/
theorem C1_one_pass_equals_brute_force_witness :
    onePassBest 0 (coWalk [(100, 2), (101, 3)] [(103, 1), (102, 4)] 1000)
      = bruteForceBest 0 (coWalk [(100, 2), (101, 3)] [(103, 1), (102, 4)] 1000) :=
  (C1_one_pass_equals_brute_force 0 [(100, 2), (101, 3)] [(103, 1), (102, 4)] 1000).1

end Coinbitrage
